import Mathlib

/-!
Verification of the DMFB synthesis baseline (place → schedule → route).

This file shallowly embeds the data model and the algorithms of
`src/baseline/problem.py`, `src/baseline/scheduling_list.py`,
`src/baseline/routing_astar.py` and `src/baseline/placement_ga.py`,
and proves or refutes the testable properties stated in the spec.

Conventions of the embedding:
* Python `dict`s are association lists; assignment is modelled either by
  prepending (newest binding wins on lookup, used where only lookups matter)
  or by in-place update (used where iteration order matters, mirroring the
  insertion-order iteration of Python dicts).
* Python's stable sorts (`list.sort`, `sorted`) are modelled by a stable
  insertion sort; a stable sort is extensionally unique, so this matches
  Python's timsort.
* `while` loops are modelled with an explicit fuel parameter; exhausting fuel
  yields `none`/an error, and all universally quantified theorems hold for
  every fuel value.
* Python machine integers are unbounded, so `Int` is exact; Python floats in
  the GA only ever hold dyadic rationals of small magnitude for realistic
  inputs, and are modelled by `ℚ`.
-/

namespace DMFB

/-- Association-list lookup: returns the value of the first matching key.
New bindings are prepended, so the first match is the newest binding,
exactly like assignment followed by lookup on a Python dict. -/
def alookup {α β : Type} [DecidableEq α] : List (α × β) → α → Option β
  | [], _ => none
  | (k, v) :: rest, key => if key = k then some v else alookup rest key

/-- In-place association-list update: replaces the value of the first
occurrence of the key, or appends a new binding at the end.  This mirrors
assignment on a Python dict while preserving insertion (iteration) order. -/
def aset {α β : Type} [DecidableEq α] : List (α × β) → α → β → List (α × β)
  | [], key, v => [(key, v)]
  | (k, w) :: rest, key, v =>
      if key = k then (k, v) :: rest else (k, w) :: aset rest key v

/-- Stable insertion into a list sorted by `le`: the new element goes before
the first element it is not `le`-dominated by.  Equal keys keep their original
relative order, matching Python's stable sorts. -/
def insertBy {α : Type} (le : α → α → Bool) (x : α) : List α → List α
  | [] => [x]
  | y :: ys => if le x y then x :: y :: ys else y :: insertBy le x ys

/-- Stable insertion sort; extensionally equal to Python's stable `sorted`
with the same comparison key. -/
def sortBy {α : Type} (le : α → α → Bool) : List α → List α
  | [] => []
  | x :: xs => insertBy le x (sortBy le xs)

/-- A dict/list comprehension that can raise on an element: stop at the
first failure. -/
def mapOpt {α β : Type} (f : α → Option β) : List α → Option (List β)
  | [] => some []
  | x :: xs =>
      match f x with
      | none => none
      | some y => (mapOpt f xs).map (y :: ·)

/-- A comprehension over a fallible element function, propagating the first
raised error. -/
def mapExc {α β : Type} (f : α → Except String β) : List α → Except String (List β)
  | [] => .ok []
  | x :: xs =>
      match f x with
      | .error e => .error e
      | .ok y =>
          match mapExc f xs with
          | .error e => .error e
          | .ok ys => .ok (y :: ys)

/-- A `for` loop threading a state through a fallible body, propagating the
first raised error. -/
def foldExc {σ α : Type} (f : σ → α → Except String σ) : σ → List α → Except String σ
  | s, [] => .ok s
  | s, x :: xs =>
      match f s x with
      | .error e => .error e
      | .ok s' => foldExc f s' xs

/-- A `for` loop threading a state through a body that can fail. -/
def foldOpt {σ α : Type} (f : σ → α → Option σ) : σ → List α → Option σ
  | s, [] => some s
  | s, x :: xs =>
      match f s x with
      | none => none
      | some s' => foldOpt f s' xs

/-- Minimum of a list of integers (`min` in Python raises on an empty list,
modelled by `none`). -/
def listMin : List Int → Option Int
  | [] => none
  | x :: xs => some (xs.foldl min x)

/-- Maximum of a list of integers (`max` in Python raises on an empty list,
modelled by `none`). -/
def listMax : List Int → Option Int
  | [] => none
  | x :: xs => some (xs.foldl max x)

/-- Maximum of a list of rationals, used by the GA statistics. -/
def listMaxQ : List ℚ → Option ℚ
  | [] => none
  | x :: xs => some (xs.foldl max x)

/-! ## Data model (`src/baseline/problem.py`) -/

/-- `ModuleType` enumeration (problem.py, class ModuleType). -/
inductive ModuleType : Type
  | mixer | heater | detector | storage | dispenser | waste
deriving DecidableEq, Repr

/-- The `.value` string of a `ModuleType` member. -/
def ModuleType.value : ModuleType → String
  | .mixer => "mixer"
  | .heater => "heater"
  | .detector => "detector"
  | .storage => "storage"
  | .dispenser => "dispenser"
  | .waste => "waste"

/-- `ModuleType(s)`: the enum constructor from a string; `none` models the
`ValueError` Python raises on an unknown string. -/
def ModuleType.ofString : String → Option ModuleType
  | "mixer" => some .mixer
  | "heater" => some .heater
  | "detector" => some .detector
  | "storage" => some .storage
  | "dispenser" => some .dispenser
  | "waste" => some .waste
  | _ => none

/-- A functional module (problem.py, class Module). -/
structure Module where
  name : String
  type : ModuleType
  width : Int
  height : Int
  exec_time : Int
  position : Option (Int × Int) := none
deriving DecidableEq, Repr

/-- An operation (problem.py, class Operation). -/
structure Operation where
  id : Int
  op_type : String
  module_type : String
  dependencies : List Int := []
  duration : Option Int := none
  inputs : List Int := []
  outputs : List Int := []
deriving DecidableEq, Repr

/-- `Operation.get_duration`: the duration override if set, else the module
default.  The module lookup can fail (Python `KeyError`) when the operation
references a module type absent from the library, hence `Option`. -/
def Operation.get_duration (op : Operation) (modules : List (String × Module)) :
    Option Int :=
  match op.duration with
  | some d => some d
  | none => (alookup modules op.module_type).map Module.exec_time

/-- A droplet (problem.py, class Droplet). -/
structure Droplet where
  id : Int
  start : Int × Int
  dest : Int × Int
  start_time : Int
  deadline : Int
  operation_id : Option Int := none
  volume : ℚ := 1
  path : List (Int × Int × Int) := []
deriving DecidableEq, Repr

/-- A complete synthesis problem (problem.py, class DMFBProblem).  The
`modules` dict is an association list in insertion order. -/
structure DMFBProblem where
  name : String
  chip_width : Int
  chip_height : Int
  modules : List (String × Module)
  operations : List Operation
  droplets : Option (List Droplet) := none
deriving DecidableEq, Repr

/-- `DMFBProblem.__post_init__`: validation run at construction time.
Checks, in source order: positive chip dimensions, at least one operation,
and that every dependency references an existing operation id.  Note that
membership of each operation's `module_type` in the module library is NOT
checked here. -/
def postInit (p : DMFBProblem) : Except String Unit :=
  if p.chip_width ≤ 0 ∨ p.chip_height ≤ 0 then
    .error "Chip dimensions must be positive"
  else if p.operations = [] then
    .error "At least one operation required"
  else
    let op_ids := p.operations.map Operation.id
    if p.operations.all (fun op => op.dependencies.all (fun d => op_ids.contains d)) then
      .ok ()
    else
      .error "depends on unknown operation"

/-- Constructing a `DMFBProblem` runs `__post_init__`; an `Except.error`
models the `ValueError` raised during construction. -/
def mkDMFBProblem (name : String) (chip_width chip_height : Int)
    (modules : List (String × Module)) (operations : List Operation)
    (droplets : Option (List Droplet)) : Except String DMFBProblem :=
  let p : DMFBProblem :=
    { name := name, chip_width := chip_width, chip_height := chip_height,
      modules := modules, operations := operations, droplets := droplets }
  match postInit p with
  | .ok _ => .ok p
  | .error e => .error e

/-! ## Serialization (`to_dict` / `from_dict`, problem.py) -/

/-- The dictionary produced by `Module.to_dict` (all keys always present). -/
structure ModuleDict where
  name : String
  type : String
  width : Int
  height : Int
  exec_time : Int
  position : Option (Int × Int)
deriving DecidableEq, Repr

/-- `Module.to_dict`. -/
def Module.to_dict (m : Module) : ModuleDict :=
  { name := m.name, type := m.type.value, width := m.width, height := m.height,
    exec_time := m.exec_time, position := m.position }

/-- `Module.from_dict`; `none` models the `ValueError` from an unknown type
string.  (`tuple(data["position"]) if data.get("position") else None`: a
present two-element position is always truthy, so this is the identity on the
optional position.) -/
def Module.from_dict (d : ModuleDict) : Option Module :=
  (ModuleType.ofString d.type).map (fun t =>
    { name := d.name, type := t, width := d.width, height := d.height,
      exec_time := d.exec_time, position := d.position })

/-- The dictionary produced by `Operation.to_dict`. -/
structure OperationDict where
  id : Int
  op_type : String
  module_type : String
  dependencies : List Int
  duration : Option Int
  inputs : List Int
  outputs : List Int
deriving DecidableEq, Repr

/-- `Operation.to_dict`. -/
def Operation.to_dict (op : Operation) : OperationDict :=
  { id := op.id, op_type := op.op_type, module_type := op.module_type,
    dependencies := op.dependencies, duration := op.duration,
    inputs := op.inputs, outputs := op.outputs }

/-- `Operation.from_dict` (the `.get` defaults never fire on a dict produced
by `to_dict`, where every key is present). -/
def Operation.from_dict (d : OperationDict) : Operation :=
  { id := d.id, op_type := d.op_type, module_type := d.module_type,
    dependencies := d.dependencies, duration := d.duration,
    inputs := d.inputs, outputs := d.outputs }

/-- The dictionary produced by `Droplet.to_dict`. -/
structure DropletDict where
  id : Int
  start : Int × Int
  dest : Int × Int
  start_time : Int
  deadline : Int
  operation_id : Option Int
  volume : ℚ
  path : List (Int × Int × Int)
deriving DecidableEq, Repr

/-- `Droplet.to_dict`. -/
def Droplet.to_dict (d : Droplet) : DropletDict :=
  { id := d.id, start := d.start, dest := d.dest, start_time := d.start_time,
    deadline := d.deadline, operation_id := d.operation_id,
    volume := d.volume, path := d.path }

/-- `Droplet.from_dict` (the `path` key is always present in a `to_dict`
output, so the `if "path" in data` guard always fires). -/
def Droplet.from_dict (d : DropletDict) : Droplet :=
  { id := d.id, start := d.start, dest := d.dest, start_time := d.start_time,
    deadline := d.deadline, operation_id := d.operation_id,
    volume := d.volume, path := d.path }

/-- The dictionary produced by `DMFBProblem.to_dict`. -/
structure ProblemDict where
  name : String
  chip_width : Int
  chip_height : Int
  modules : List (String × ModuleDict)
  operations : List OperationDict
  droplets : Option (List DropletDict)
deriving DecidableEq, Repr

/-- `DMFBProblem.to_dict`.  Note the droplets entry is
`[d.to_dict() for d in self.droplets] if self.droplets else None`: a `None`
droplet list AND an empty droplet list both serialize to `None`. -/
def DMFBProblem.to_dict (p : DMFBProblem) : ProblemDict :=
  { name := p.name, chip_width := p.chip_width, chip_height := p.chip_height,
    modules := p.modules.map (fun kv => (kv.1, kv.2.to_dict)),
    operations := p.operations.map Operation.to_dict,
    droplets := match p.droplets with
      | some ds => if ds = [] then none else some (ds.map Droplet.to_dict)
      | none => none }

/-- `DMFBProblem.from_dict`.  Parsing a module type can raise (`Option` bind),
and constructing the `DMFBProblem` runs `__post_init__` validation.  The
droplets entry is rebuilt only `if data.get("droplets")`, i.e. only when
present and non-empty. -/
def DMFBProblem.from_dict (d : ProblemDict) : Except String DMFBProblem :=
  match mapOpt (fun kv => (Module.from_dict kv.2).map (fun m => (kv.1, m))) d.modules with
  | none => .error "unknown module type string"
  | some ms =>
      let ops := d.operations.map Operation.from_dict
      let drs : Option (List Droplet) :=
        match d.droplets with
        | some l => if l = [] then none else some (l.map Droplet.from_dict)
        | none => none
      mkDMFBProblem d.name d.chip_width d.chip_height ms ops drs

/-! ## Topological sort and critical path (problem.py) -/

/-- Seed the Kahn in-degree dict: `{op.id: 0 for op in operations}` followed
by one increment per dependency occurrence. -/
def kahnInit (ops : List Operation) : List (Int × Int) :=
  let z := ops.foldl (fun m op => aset m op.id (0 : Int)) []
  ops.foldl (fun m op =>
    op.dependencies.foldl (fun m' _d =>
      match alookup m' op.id with
      | some v => aset m' op.id (v + 1)
      | none => m') m) z

/-- The body of the inner scan of Kahn's algorithm for a popped id `q`:
if the operation depends on `q`, decrement its in-degree and enqueue it when
the in-degree reaches zero. -/
def kahnStep (q : Int) (st : List (Int × Int) × List Int) (op : Operation) :
    List (Int × Int) × List Int :=
  if op.dependencies.contains q then
    match alookup st.1 op.id with
    | some v =>
        let d' := v - 1
        if d' = 0 then (aset st.1 op.id d', st.2 ++ [op.id])
        else (aset st.1 op.id d', st.2)
    | none => st
  else st

/-- One round of Kahn's algorithm: pop the queue head, append it to the
result, and scan all operations decrementing the in-degree of each operation
that depends on the popped id, enqueueing those that reach zero. -/
def kahnLoop (ops : List Operation) :
    List Int → List (Int × Int) → List Int → Nat → Option (List Int)
  | [], _, acc, _ => some acc
  | _, _, _, 0 => none
  | q :: qs, deg, acc, fuel + 1 =>
      let step := ops.foldl (kahnStep q) (deg, qs)
      kahnLoop ops step.2 step.1 (acc ++ [q]) fuel

/-- `DMFBProblem.topological_sort`: Kahn's algorithm; raises (`Except.error`)
when the result does not cover all operations.  The fuel `length + 1`
suffices because every id is enqueued at most once. -/
def topologicalSort (p : DMFBProblem) : Except String (List Int) :=
  let deg := kahnInit p.operations
  let queue := (deg.filter (fun kv => kv.2 = 0)).map Prod.fst
  match kahnLoop p.operations queue deg [] (p.operations.length + 1) with
  | none => .error "fuel exhausted"
  | some res =>
      if res.length = p.operations.length then .ok res
      else .error "Dependency graph contains cycles"

/-- One dependency edge: the operation with id `a` lists `b` among its
dependencies. -/
def depEdge (p : DMFBProblem) (a b : Int) : Prop :=
  ∃ op ∈ p.operations, op.id = a ∧ b ∈ op.dependencies

/-- The dependency graph contains a cycle: some closed, non-empty chain of
dependency edges from an id back to itself. -/
def hasCycle (p : DMFBProblem) : Prop :=
  ∃ a c, List.Chain (depEdge p) a (c ++ [a])

/-- Invariant of the inner scan of one Kahn round, after popping `q` with
`acc2 = acc ++ [q]` already emitted and the suffix `l` of operations still to
be scanned: no member of the closed set `S` is queued; the queue is
duplicate-free, disjoint from the emitted ids, made of known ids, and every
queued or emitted id has a non-positive stored in-degree; and every id in `S`
retains an in-degree at least the number of its not-yet-emitted dependency
occurrences, plus one pending decrement if its operation still awaits its
scan for `q`. -/
def KInv (ops : List Operation) (S : List Int) (q : Int) (acc2 : List Int)
    (l : List Operation) (deg : List (Int × Int)) (queue : List Int) : Prop :=
  (∀ a ∈ S, a ∉ queue) ∧
  queue.Nodup ∧
  (∀ x ∈ queue, x ∉ acc2) ∧
  (∀ x, x ∈ queue ∨ x ∈ acc2 → ∃ n : Int, alookup deg x = some n ∧ n ≤ 0) ∧
  (∀ x ∈ queue, x ∈ ops.map Operation.id) ∧
  (∀ a ∈ S, ∀ op ∈ ops, op.id = a → ∃ n : Int, alookup deg a = some n ∧
    ((op.dependencies.filter (fun d => decide (d ∉ acc2))).length : Int) +
      (if q ∈ op.dependencies ∧ op.id ∈ l.map Operation.id then 1 else 0) ≤ n)

/-- Invariant of the Kahn main loop for a closed set `S`: `S` never meets the
emitted list or the queue; the queue and the emitted list are duplicate-free,
disjoint, and made of known ids, queued or emitted ids have non-positive
stored in-degrees, and every id in `S` retains an in-degree at least the
number of its not-yet-emitted dependency occurrences. -/
def KLoopInv (ops : List Operation) (S : List Int) (deg : List (Int × Int))
    (queue acc : List Int) : Prop :=
  (∀ a ∈ S, a ∉ acc) ∧
  (∀ a ∈ S, a ∉ queue) ∧
  queue.Nodup ∧
  acc.Nodup ∧
  (∀ x ∈ queue, x ∉ acc) ∧
  (∀ x, x ∈ queue ∨ x ∈ acc → ∃ n : Int, alookup deg x = some n ∧ n ≤ 0) ∧
  (∀ x ∈ queue, x ∈ ops.map Operation.id) ∧
  (∀ x ∈ acc, x ∈ ops.map Operation.id) ∧
  (∀ a ∈ S, ∀ op ∈ ops, op.id = a → ∃ n : Int, alookup deg a = some n ∧
    ((op.dependencies.filter (fun d => decide (d ∉ acc))).length : Int) ≤ n)

/-- First operation of the cyclic instance: depends on operation 2. -/
def c8Op1 : Operation :=
  { id := 1, op_type := "mix", module_type := "mixer", dependencies := [2] }

/-- Second operation of the cyclic instance: depends on operation 1. -/
def c8Op2 : Operation :=
  { id := 2, op_type := "mix", module_type := "mixer", dependencies := [1] }

/-- A problem whose two operations depend on each other: the dependency
graph is a two-cycle. -/
def c8Problem : DMFBProblem :=
  { name := "cyclic", chip_width := 10, chip_height := 10, modules := [],
    operations := [c8Op1, c8Op2], droplets := none }

/-- `next(o for o in operations if o.id == op_id)`: first matching operation. -/
def findOpFirst (ops : List Operation) (i : Int) : Option Operation :=
  ops.find? (fun o => o.id = i)

/-- `self.op_map[op_id]` where `op_map = {op.id: op for op in operations}`:
on duplicate ids the dict keeps the last occurrence. -/
def opMapFind (ops : List Operation) (i : Int) : Option Operation :=
  ops.reverse.find? (fun o => o.id = i)

/-- The shared forward sweep of `get_critical_path_length` and
`_compute_asap`: earliest start times over a given topological order.
`lookupOp` abstracts the two source variants of resolving an id to its
operation (they agree on duplicate-free instances). -/
def asapSweep (p : DMFBProblem) (lookupOp : List Operation → Int → Option Operation)
    (topo : List Int) : Except String (List (Int × Int)) :=
  let e0 := p.operations.foldl (fun m op => aset m op.id (0 : Int)) []
  foldExc (fun (m : List (Int × Int)) op_id =>
    match lookupOp p.operations op_id with
    | none => Except.error "operation not found"
    | some op =>
        match op.get_duration p.modules with
        | none => Except.error "KeyError: unknown module type"
        | some dur =>
            let fin := (alookup m op_id).getD 0 + dur
            pure (p.operations.foldl (fun m' succ =>
              if succ.dependencies.contains op_id then
                aset m' succ.id (max ((alookup m' succ.id).getD 0) fin)
              else m') m)) e0 topo

/-- `max(es[op.id] + duration for op in operations)` over a finished sweep. -/
def sweepMakespan (p : DMFBProblem) (es : List (Int × Int)) : Except String Int := do
  let vals ← mapExc (fun op =>
    match op.get_duration p.modules with
    | none => Except.error "KeyError: unknown module type"
    | some d => pure ((alookup es op.id).getD 0 + d)) p.operations
  match listMax vals with
  | none => Except.error "max of empty sequence"
  | some v => pure v

/-- `DMFBProblem.get_critical_path_length`. -/
def criticalPathLength (p : DMFBProblem) : Except String Int := do
  let topo ← topologicalSort p
  let es ← asapSweep p findOpFirst topo
  sweepMakespan p es

/-! ## List scheduler (`src/baseline/scheduling_list.py`) -/

/-- `ListScheduler` after `__init__`: the problem, the per-type instance
counts (a missing key models the `float('inf')` unlimited default) and the
precomputed ASAP/ALAP tables. -/
structure Scheduler where
  problem : DMFBProblem
  module_instances : List (String × Nat)
  asap : List (Int × Int)
  alap : List (Int × Int)
deriving Repr

/-- `ListScheduler._compute_asap`. -/
def computeAsap (p : DMFBProblem) : Except String (List (Int × Int)) := do
  let topo ← topologicalSort p
  asapSweep p opMapFind topo

/-- `ListScheduler._compute_alap`. -/
def computeAlap (p : DMFBProblem) : Except String (List (Int × Int)) := do
  let asap ← computeAsap p
  let cp ← sweepMakespan p asap
  let topo ← topologicalSort p
  let a0 := p.operations.foldl (fun m op => aset m op.id cp) []
  foldExc (fun (m : List (Int × Int)) op_id =>
    match opMapFind p.operations op_id with
    | none => Except.error "operation not found"
    | some op =>
        match op.get_duration p.modules with
        | none => Except.error "KeyError: unknown module type"
        | some dur =>
            let succs := p.operations.filter (fun o => o.dependencies.contains op_id)
            if succs = [] then pure m
            else
              match listMin (succs.map (fun s => (alookup m s.id).getD 0)) with
              | none => Except.error "min of empty sequence"
              | some msucc => pure (aset m op_id (msucc - dur))) a0 topo.reverse

/-- `ListScheduler.__init__`: builds the op map and precomputes ASAP/ALAP;
a cyclic dependency graph raises here, before `solve` ever runs. -/
def mkScheduler (p : DMFBProblem) (mi : List (String × Nat)) :
    Except String Scheduler := do
  let a ← computeAsap p
  let al ← computeAlap p
  pure { problem := p, module_instances := mi, asap := a, alap := al }

/-- `ListScheduler._longest_path_to_sink` (memoization dropped: it only
avoids recomputation and does not change the value). -/
def longestPathToSink (p : DMFBProblem) : Nat → Int → Option Int
  | 0, _ => none
  | fuel + 1, op_id =>
      match opMapFind p.operations op_id with
      | none => none
      | some op =>
          match op.get_duration p.modules with
          | none => none
          | some dur =>
              let succs := p.operations.filter (fun o => o.dependencies.contains op_id)
              if succs = [] then some dur
              else
                match mapOpt (fun s => longestPathToSink p fuel s.id) succs with
                | none => none
                | some paths => (listMax paths).map (dur + ·)

/-- `ListScheduler._calculate_priorities`. -/
def calculatePriorities (s : Scheduler) (strategy : String) :
    Option (List (Int × Int)) :=
  mapOpt (fun op =>
    if strategy = "asap" then some (op.id, -((alookup s.asap op.id).getD 0))
    else if strategy = "alap" then some (op.id, -((alookup s.alap op.id).getD 0))
    else if strategy = "mobility" then
      some (op.id, -(((alookup s.alap op.id).getD 0) - ((alookup s.asap op.id).getD 0)))
    else if strategy = "critical_path" then
      (longestPathToSink s.problem (s.problem.operations.length + 1) op.id).map
        (fun cp => (op.id, cp))
    else some (op.id, -op.id)) s.problem.operations

/-- The mutable state of the `solve` main loop: the partial schedule
(`op_id ↦ (start, end)` as an id-keyed triple list), the completed set, the
per-type module availability table and the clock. -/
structure SchedLoopState where
  schedule : List (Int × Int × Int)
  completed : List Int
  moduleAvail : List (String × List Int)
  currentTime : Int
deriving Repr

/-- `list[idx] = v` where `idx = list.index(tgt)`: replace the first
occurrence of `tgt`. -/
def replaceFirst : List Int → Int → Int → List Int
  | [], _, _ => []
  | x :: xs, tgt, v => if x = tgt then v :: xs else x :: replaceFirst xs tgt v

/-- Schedule one ready operation (the body of the `for op_id in ready` loop
of `solve`): earliest start from dependencies and the clock, then module
availability, then record the `(start, end)` pair. -/
def scheduleReadyOp (s : Scheduler) (st : SchedLoopState) (op_id : Int) :
    Option SchedLoopState :=
  match opMapFind s.problem.operations op_id with
  | none => none
  | some op =>
      match op.get_duration s.problem.modules with
      | none => none
      | some duration =>
          let earliest_dep := op.dependencies.foldl (fun acc dep =>
            match alookup st.schedule dep with
            | some se => max acc se.2
            | none => acc) st.currentTime
          let next : Option (Int × List (String × List Int)) :=
            match alookup s.module_instances op.module_type with
            | none => some (earliest_dep, st.moduleAvail)
            | some _count =>
                let avail := (alookup st.moduleAvail op.module_type).getD []
                match listMin avail with
                | none => none
                | some ea =>
                    let start := max earliest_dep ea
                    some (start,
                      aset st.moduleAvail op.module_type
                        (replaceFirst avail ea (start + duration)))
          match next with
          | none => none
          | some (start, avail') =>
              let endT := start + duration
              some { schedule := (op_id, start, endT) :: st.schedule,
                     completed :=
                       if endT ≤ st.currentTime then op_id :: st.completed
                       else st.completed,
                     moduleAvail := avail',
                     currentTime := st.currentTime }

/-- The clock-advancement branch of `solve` (`ready` empty, schedule
non-empty): jump to the earliest pending completion and mark everything
finishing by then as completed.  `min` of an empty selection raises, hence
`Option`. -/
def advanceClock (st : SchedLoopState) : Option SchedLoopState :=
  let pending := st.schedule.filter (fun e => ¬ st.completed.contains e.1)
  match listMin (pending.map (fun e => e.2.2)) with
  | none => none
  | some t =>
      some { st with
        currentTime := t,
        completed := st.completed ++
          ((st.schedule.filter (fun e =>
            e.2.2 ≤ t ∧ ¬ st.completed.contains e.1)).map (·.1)) }

/-- The `while len(completed) < len(operations)` main loop of
`ListScheduler.solve`.  When `ready` is empty and nothing is scheduled yet
the Python loop spins (`continue` with no state change); here that path
consumes fuel until `none`. -/
def schedLoop (s : Scheduler) (priorities : List (Int × Int)) :
    SchedLoopState → Nat → Option SchedLoopState
  | _, 0 => none
  | st, fuel + 1 =>
      if s.problem.operations.length ≤ st.completed.length then some st
      else
        let ready := (s.problem.operations.filter (fun op =>
          ¬ st.completed.contains op.id ∧ (alookup st.schedule op.id).isNone ∧
          op.dependencies.all (fun d => st.completed.contains d))).map (·.id)
        if ready = [] then
          if st.schedule = [] then schedLoop s priorities st fuel
          else
            match advanceClock st with
            | none => none
            | some st' => schedLoop s priorities st' fuel
        else
          let sortedReady := sortBy (fun a b =>
            (alookup priorities b).getD 0 ≤ (alookup priorities a).getD 0) ready
          match foldOpt (scheduleReadyOp s) st sortedReady with
          | none => none
          | some st' => schedLoop s priorities st' fuel

/-- The result of `ListScheduler.solve` (the `module_usage` statistics dict
is omitted: no claim mentions it). -/
structure SchedResult where
  schedule : List (Int × Int × Int)
  makespan : Int
deriving DecidableEq, Repr

/-- `ListScheduler.solve`: build the availability table, compute priorities,
run the main loop, and take the makespan as the maximum end tick. -/
def solveSched (s : Scheduler) (strategy : String) (fuel : Nat) :
    Option SchedResult :=
  match calculatePriorities s strategy with
  | none => none
  | some priorities =>
      let avail0 := s.problem.modules.map (fun kv =>
        match alookup s.module_instances kv.1 with
        | none => (kv.1, [(0 : Int)])
        | some count => (kv.1, List.replicate count 0))
      let st0 : SchedLoopState :=
        { schedule := [], completed := [], moduleAvail := avail0, currentTime := 0 }
      match schedLoop s priorities st0 fuel with
      | none => none
      | some st =>
          match listMax (st.schedule.map (fun e => e.2.2)) with
          | none => none
          | some ms => some { schedule := st.schedule, makespan := ms }

/-! ## A* router (`src/baseline/routing_astar.py`) -/

/-- A space-time position `(x, y, t)`. -/
abbrev Pos := Int × Int × Int

/-- A node of the A* search tree (the stored `f_score` field is only used
through the priority-queue tuple, so it is kept in the queue entry instead). -/
structure ANode where
  g : Nat
  x : Int
  y : Int
  t : Int
deriving DecidableEq, Repr

/-- A priority-queue entry `(f_score, counter, node)`. -/
abbrev OpenEntry := Int × Nat × ANode

/-- Lexicographic order on `(f_score, counter)`; the node itself is never
compared because push counters are unique. -/
def keyLe (a b : OpenEntry) : Bool :=
  a.1 < b.1 ∨ (a.1 = b.1 ∧ a.2.1 ≤ b.2.1)

/-- `heapq.heappop`: remove the entry with the least `(f_score, counter)`
key (leftmost among equals; keys are in fact unique). -/
def popMin : List OpenEntry → Option (OpenEntry × List OpenEntry)
  | [] => none
  | e :: es =>
      match popMin es with
      | none => some (e, [])
      | some (m, rest) => if keyLe e m then some (e, es) else some (m, e :: rest)

/-- `AStarRouter` state: grid size, static obstacles, and the two
reservation tables (`(x,y,t) ↦ droplet_id`). -/
structure RouterState where
  width : Int
  height : Int
  static_obstacles : List (Int × Int)
  reservations : List (Pos × Int)
  blocked_cells : List (Pos × Int)
deriving Repr

/-- Manhattan-distance heuristic (`AStarRouter._heuristic`). -/
def heuristic (a b : Int × Int) : Int := |a.1 - b.1| + |a.2 - b.2|

/-- The `FLUIDIC_CONSTRAINT = 1` neighbourhood offsets, in the
`range(-1, 2) × range(-1, 2)` iteration order of the source. -/
def fluidicOffsets : List (Int × Int) :=
  [(-1, -1), (-1, 0), (-1, 1), (0, -1), (0, 0), (0, 1), (1, -1), (1, 0), (1, 1)]

/-- `AStarRouter._is_valid_move`: the direct reservation check followed by
the fluidic-constraint check on the blocked-cells table (skipping the
`(0,0)` offset). -/
def isValidMove (rs : RouterState) (x y t droplet_id : Int) (avoid : List Int) :
    Bool :=
  (match alookup rs.reservations (x, y, t) with
   | some other => decide (other = droplet_id) || avoid.contains other
   | none => true) &&
  fluidicOffsets.all (fun d =>
    if d = ((0 : Int), (0 : Int)) then true
    else
      match alookup rs.blocked_cells (x + d.1, y + d.2, t) with
      | some other => decide (other = droplet_id) || avoid.contains other
      | none => true)

/-- `AStarRouter._add_reservations`: reserve every path cell and block the
full fluidic neighbourhood (including the cell itself) at the same tick. -/
def addReservations (rs : RouterState) (droplet_id : Int) (path : List Pos) :
    RouterState :=
  path.foldl (fun r e =>
    { r with
      reservations := (e, droplet_id) :: r.reservations,
      blocked_cells :=
        fluidicOffsets.foldl
          (fun b d => (((e.1 + d.1, e.2.1 + d.2, e.2.2) : Pos), droplet_id) :: b)
          r.blocked_cells }) rs

/-- The neighbour offsets of the search: 4 directions plus wait, in source
order. -/
def moveDirs : List (Int × Int) := [(0, 1), (0, -1), (1, 0), (-1, 0), (0, 0)]

/-- One neighbour expansion of the A* loop: deadline, bounds, obstacle and
reservation checks, then the closed-set pruning, then push and parent
recording. -/
def expandStep (rs : RouterState) (drop : Droplet) (avoid : List Int)
    (cur : ANode) (closed : List (Pos × Nat))
    (st : List OpenEntry × Nat × List (Pos × Pos)) (d : Int × Int) :
    List OpenEntry × Nat × List (Pos × Pos) :=
  let nx := cur.x + d.1
  let ny := cur.y + d.2
  let nt := cur.t + 1
  if drop.deadline < nt then st
  else if ¬ (0 ≤ nx ∧ nx < rs.width ∧ 0 ≤ ny ∧ ny < rs.height) then st
  else if rs.static_obstacles.contains (nx, ny) then st
  else if ¬ isValidMove rs nx ny nt drop.id avoid then st
  else
    let newG := cur.g + 1
    let newPos : Pos := (nx, ny, nt)
    let skip :=
      match alookup closed newPos with
      | some cg => decide (cg ≤ newG)
      | none => false
    if skip then st
    else
      let newF := (newG : Int) + heuristic (nx, ny) drop.dest
      let counter' := st.2.1 + 1
      ((newF, counter', ⟨newG, nx, ny, nt⟩) :: st.1, counter',
       (newPos, ((cur.x, cur.y, cur.t) : Pos)) :: st.2.2)

/-- The parent chain of the path reconstruction
(`while node in came_from: path.append(node); node = came_from[node]`).
The fuel bound `(goal tick − start tick) + 1` always suffices because every
parent step decreases the tick by one and no recorded key has the start
tick. -/
def chainFrom (cameFrom : List (Pos × Pos)) : Pos → Nat → List Pos
  | _, 0 => []
  | node, fuel + 1 =>
      match alookup cameFrom node with
      | some v => node :: chainFrom cameFrom v fuel
      | none => []

/-- Path reconstruction: chain from the goal node, append the start, and
reverse (`path.append(start); path.reverse()`). -/
def reconstructPath (cameFrom : List (Pos × Pos)) (node startP : Pos)
    (fuel : Nat) : List Pos :=
  startP :: (chainFrom cameFrom node fuel).reverse

/-- The main A* loop of `route_single`: pop the least-`(f, counter)` entry,
test the goal (before any validity check on the popped state), prune by the
closed set, otherwise expand the five moves. -/
def astarLoop (rs : RouterState) (drop : Droplet) (avoid : List Int) :
    List OpenEntry → Nat → List (Pos × Nat) → List (Pos × Pos) → Nat →
    Option (List Pos)
  | _, _, _, _, 0 => none
  | openS, counter, closed, cameFrom, fuel + 1 =>
      match popMin openS with
      | none => none
      | some ((_f, _c, cur), rest) =>
          if (cur.x, cur.y) = drop.dest then
            some (reconstructPath cameFrom ((cur.x, cur.y, cur.t) : Pos)
              ((drop.start.1, drop.start.2, drop.start_time) : Pos)
              ((cur.t - drop.start_time).toNat + 1))
          else
            let pos : Pos := (cur.x, cur.y, cur.t)
            let skip :=
              match alookup closed pos with
              | some cg => decide (cg ≤ cur.g)
              | none => false
            if skip then astarLoop rs drop avoid rest counter closed cameFrom fuel
            else
              let closed' := (pos, cur.g) :: closed
              let st := moveDirs.foldl (expandStep rs drop avoid cur closed')
                (rest, counter, cameFrom)
              astarLoop rs drop avoid st.1 st.2.1 closed' st.2.2 fuel

/-- `AStarRouter.route_single`: A* over `(x, y, t)` from the droplet's start
cell at its earliest-depart tick towards its destination cell. -/
def routeSingle (rs : RouterState) (drop : Droplet) (avoid : List Int)
    (fuel : Nat) : Option (List Pos) :=
  astarLoop rs drop avoid
    [(heuristic drop.start drop.dest, 0,
      ⟨0, drop.start.1, drop.start.2, drop.start_time⟩)]
    0 [] [] fuel

/-- `sorted(droplets, key=lambda d: d.deadline)`: stable ascending sort. -/
def sortByDeadline (ds : List Droplet) : List Droplet :=
  sortBy (fun a b => a.deadline ≤ b.deadline) ds

/-- The sequential routing of `_route_prioritized` after the tables have
been cleared: route each droplet in order, committing successful paths. -/
def routePrioritizedAux (fuel : Nat) :
    RouterState → List Droplet →
    List (Int × Option (List Pos)) × RouterState
  | rs, [] => ([], rs)
  | rs, d :: rest =>
      match routeSingle rs d [] fuel with
      | some p =>
          let rs' := addReservations rs d.id p
          let step := routePrioritizedAux fuel rs' rest
          ((d.id, some p) :: step.1, step.2)
      | none =>
          let step := routePrioritizedAux fuel rs rest
          ((d.id, none) :: step.1, step.2)

/-- `self.reservations.clear(); self.blocked_cells.clear()`. -/
def clearTables (rs : RouterState) : RouterState :=
  { rs with reservations := [], blocked_cells := [] }

/-- `AStarRouter._route_prioritized`: sort ascending by deadline, clear the
reservation tables, route sequentially. -/
def routePrioritized (rs : RouterState) (droplets : List Droplet)
    (fuel : Nat) : List (Int × Option (List Pos)) × RouterState :=
  routePrioritizedAux fuel (clearTables rs) (sortByDeadline droplets)

/-- `AStarRouter._remove_reservations`: delete the droplet's own bindings on
every path cell and its fluidic neighbourhood. -/
def removeReservations (rs : RouterState) (droplet_id : Int)
    (path : List Pos) : RouterState :=
  path.foldl (fun r e =>
    let r1 :=
      { r with reservations :=
          match alookup r.reservations e with
          | some j =>
              if j = droplet_id then
                r.reservations.filter (fun kv => kv.1 ≠ e)
              else r.reservations
          | none => r.reservations }
    { r1 with blocked_cells :=
        fluidicOffsets.foldl (fun b d =>
          let k : Pos := (e.1 + d.1, e.2.1 + d.2, e.2.2)
          match alookup b k with
          | some j => if j = droplet_id then b.filter (fun kv => kv.1 ≠ k) else b
          | none => b) r1.blocked_cells }) rs

/-- `AStarRouter._detect_conflicts`, reduced to the `'droplets'` pair
`[occupant, current]` of each collision record (the only field the iterative
strategy reads). -/
def detectConflicts (results : List (Int × Option (List Pos))) :
    List (Int × Int) :=
  (results.foldl (fun (st : List (Pos × Int) × List (Int × Int)) entry =>
    match entry.2 with
    | none => st
    | some path =>
        path.foldl (fun st' e =>
          match alookup st'.1 e with
          | some other => ((e, entry.1) :: st'.1, st'.2 ++ [(other, entry.1)])
          | none => ((e, entry.1) :: st'.1, st'.2)) st) ([], [])).2

/-- The per-conflict body of `_route_iterative`: re-route the droplet with
the larger id, allowing the other conflicting droplet as passable. -/
def resolveConflict (droplets : List Droplet) (fuel : Nat)
    (acc : List (Int × Option (List Pos)) × RouterState) (c : Int × Int) :
    List (Int × Option (List Pos)) × RouterState :=
  let later := max c.1 c.2
  let other := min c.1 c.2
  match droplets.find? (fun d => d.id = later) with
  | none => acc
  | some d =>
      let rs1 :=
        match alookup acc.1 later with
        | some (some oldp) => removeReservations acc.2 later oldp
        | _ => acc.2
      match routeSingle rs1 d [other] fuel with
      | some newp => (aset acc.1 later (some newp), addReservations rs1 later newp)
      | none => (acc.1, rs1)

/-- The `for iteration in range(max_iterations)` loop of
`_route_iterative`. -/
def routeIterLoop (droplets : List Droplet) (fuel : Nat) :
    List (Int × Option (List Pos)) × RouterState → Nat →
    List (Int × Option (List Pos)) × RouterState
  | st, 0 => st
  | st, it + 1 =>
      let conflicts := detectConflicts st.1
      if conflicts = [] then st
      else routeIterLoop droplets fuel
        (conflicts.foldl (resolveConflict droplets fuel) st) it

/-- `AStarRouter._route_iterative` (`max_iterations = 10`). -/
def routeIterative (rs : RouterState) (droplets : List Droplet) (fuel : Nat)
    (max_iterations : Nat) : List (Int × Option (List Pos)) × RouterState :=
  routeIterLoop droplets fuel (routePrioritized rs droplets fuel) max_iterations

/-- `AStarRouter.route_multiple`: strategy dispatch (`ValueError` on an
unknown strategy modelled as `none`). -/
def routeMultiple (rs : RouterState) (droplets : List Droplet)
    (strategy : String) (fuel : Nat) :
    Option (List (Int × Option (List Pos))) :=
  if strategy = "prioritized" then some (routePrioritized rs droplets fuel).1
  else if strategy = "iterative" then
    some (routeIterative rs droplets fuel 10).1
  else none

/-! ## Placement GA (`src/baseline/placement_ga.py`)

Randomness is modelled by an explicit oracle (`Rng`) of three streams:
uniform floats in `[0,1)` (as rationals), integer displacements standing for
`int(x + random.gauss(0, σ)) − x`, and index draws for `random.sample` /
`random.randint`.  Every concrete run of the Python GA corresponds to some
oracle, so a theorem quantified over all oracles covers all runs.  Fitness
values are exact rationals; Python's floats are exact on the dyadic values
the fitness formulas produce at realistic magnitudes.  `_mutate`'s cache
invalidation (`fitness = None`) is fused with the re-evaluation that `solve`
performs immediately afterwards, so `fitness` is always populated. -/

/-- A GA individual; `copy` (a `deepcopy` in Python, needed there to avoid
aliasing) is the identity on pure values. -/
structure PlacementIndividual where
  positions : List (Int × (Int × Int))
  fitness : ℚ
deriving DecidableEq, Repr

/-- `PlacementIndividual.copy`. -/
def PlacementIndividual.copy (i : PlacementIndividual) : PlacementIndividual := i

/-- The random oracle: three streams with cursors. -/
structure Rng where
  floats : Nat → ℚ
  gaussInts : Nat → Int
  picks : Nat → Nat
  fi : Nat := 0
  gi : Nat := 0
  ki : Nat := 0

/-- Draw one uniform float (`random.random()`). -/
def Rng.nextFloat (r : Rng) : ℚ × Rng := (r.floats r.fi, { r with fi := r.fi + 1 })

/-- Draw one integer displacement (`int(x + random.gauss(0, σ)) − x`). -/
def Rng.nextGauss (r : Rng) : Int × Rng :=
  (r.gaussInts r.gi, { r with gi := r.gi + 1 })

/-- Draw one index (`random.sample` membership / `random.randint`). -/
def Rng.nextPick (r : Rng) : Nat × Rng := (r.picks r.ki, { r with ki := r.ki + 1 })

/-- `PlacementGA.__init__` parameters. -/
structure PlacementGA where
  problem : DMFBProblem
  pop_size : Nat
  generations : Nat
  crossover_rate : ℚ
  mutation_rate : ℚ
  elitism : Nat
  tournament_size : Nat
  penalty_overlap : ℚ
  penalty_boundary : ℚ

/-- Placeholder values for the `KeyError` paths of the Python dict lookups
(`modules[op.module_type]`, `op_map[dep_id]`, `positions[id]`); they are
never consulted on instances whose operations reference library modules. -/
def dummyModule : Module :=
  { name := "", type := .mixer, width := 0, height := 0, exec_time := 0 }

/-- `self.problem.modules[mt]`. -/
def modOf (ga : PlacementGA) (mt : String) : Module :=
  (alookup ga.problem.modules mt).getD dummyModule

/-- `self.op_map[i]`. -/
def opOf (ga : PlacementGA) (i : Int) : Operation :=
  (opMapFind ga.problem.operations i).getD { id := 0, op_type := "", module_type := "" }

/-- `PlacementGA._rects_overlap`. -/
def rectsOverlap (x1 y1 w1 h1 x2 y2 w2 h2 : Int) : Bool :=
  ¬ (x1 + w1 ≤ x2 ∨ x2 + w2 ≤ x1 ∨ y1 + h1 ≤ y2 ∨ y2 + h2 ≤ y1)

/-- `PlacementGA._overlap_area`. -/
def overlapArea (x1 y1 w1 h1 x2 y2 w2 h2 : Int) : ℚ :=
  let left := max x1 x2
  let right := min (x1 + w1) (x2 + w2)
  let top := max y1 y2
  let bottom := min (y1 + h1) (y2 + h2)
  if right ≤ left ∨ bottom ≤ top then 0 else ((right - left) * (bottom - top) : Int)

/-- `PlacementGA._calculate_wirelength`: Manhattan distance between module
centres over every dependency edge. -/
def calculateWirelength (ga : PlacementGA)
    (ind : List (Int × (Int × Int))) : ℚ :=
  ga.problem.operations.foldl (fun total op =>
    let p1 := (alookup ind op.id).getD (0, 0)
    op.dependencies.foldl (fun t dep =>
      let p2 := (alookup ind dep).getD (0, 0)
      let m1 := modOf ga op.module_type
      let m2 := modOf ga (opOf ga dep).module_type
      let cx1 : ℚ := (p1.1 : ℚ) + (m1.width : ℚ) / 2
      let cy1 : ℚ := (p1.2 : ℚ) + (m1.height : ℚ) / 2
      let cx2 : ℚ := (p2.1 : ℚ) + (m2.width : ℚ) / 2
      let cy2 : ℚ := (p2.2 : ℚ) + (m2.height : ℚ) / 2
      t + (|cx1 - cx2| + |cy1 - cy2|)) total) 0

/-- The ordered pairs `(positions[i], positions[j])`, `i < j`, of the nested
overlap-penalty loops. -/
def pairsAfter {α : Type} : List α → List (α × α)
  | [] => []
  | x :: xs => xs.map (fun y => (x, y)) ++ pairsAfter xs

/-- `PlacementGA._calculate_overlap_penalty`. -/
def calculateOverlapPenalty (ga : PlacementGA)
    (ind : List (Int × (Int × Int))) : ℚ :=
  (pairsAfter ind).foldl (fun pen pr =>
    let m1 := modOf ga (opOf ga pr.1.1).module_type
    let m2 := modOf ga (opOf ga pr.2.1).module_type
    let a := pr.1.2
    let b := pr.2.2
    if rectsOverlap a.1 a.2 m1.width m1.height b.1 b.2 m2.width m2.height then
      pen + ga.penalty_overlap *
        overlapArea a.1 a.2 m1.width m1.height b.1 b.2 m2.width m2.height
    else pen) 0

/-- `PlacementGA._calculate_boundary_penalty`. -/
def calculateBoundaryPenalty (ga : PlacementGA)
    (ind : List (Int × (Int × Int))) : ℚ :=
  ind.foldl (fun pen kv =>
    let m := modOf ga (opOf ga kv.1).module_type
    let right := kv.2.1 + m.width
    let bottom := kv.2.2 + m.height
    let pen1 := if ga.problem.chip_width < right then
        pen + ga.penalty_boundary * ((right - ga.problem.chip_width : Int) : ℚ)
      else pen
    let pen2 := if ga.problem.chip_height < bottom then
        pen1 + ga.penalty_boundary * ((bottom - ga.problem.chip_height : Int) : ℚ)
      else pen1
    let pen3 := if kv.2.1 < 0 then
        pen2 + ga.penalty_boundary * ((|kv.2.1| : Int) : ℚ) else pen2
    if kv.2.2 < 0 then pen3 + ga.penalty_boundary * ((|kv.2.2| : Int) : ℚ)
    else pen3) 0

/-- `PlacementGA._evaluate`: `-(wirelength + overlap + boundary)`. -/
def evaluateGA (ga : PlacementGA) (ind : List (Int × (Int × Int))) : ℚ :=
  -(calculateWirelength ga ind + calculateOverlapPenalty ga ind +
    calculateBoundaryPenalty ga ind)

/-- Draw `n` indices from the pick stream. -/
def drawPicks : Nat → Rng → List Nat × Rng
  | 0, r => ([], r)
  | n + 1, r =>
      let (i, r') := r.nextPick
      let step := drawPicks n r'
      (i :: step.1, step.2)

/-- Python's `max(iterable, key=...)`: the first element with maximal key. -/
def maxByFitness : List PlacementIndividual → PlacementIndividual
  | [] => { positions := [], fitness := 0 }
  | x :: xs => xs.foldl (fun best c => if best.fitness < c.fitness then c else best) x

/-- `PlacementGA._tournament_select`: draw `min(tournament_size, len(pop))`
members and keep the fittest.  (`random.sample` draws distinct members; the
oracle's index draws cover every possible sample.) -/
def tournamentSelect (ga : PlacementGA) (pop : List PlacementIndividual)
    (r : Rng) : PlacementIndividual × Rng :=
  let k := min ga.tournament_size pop.length
  let draw := drawPicks k r
  let tour := draw.1.map (fun i =>
    pop.getD (i % max pop.length 1) { positions := [], fitness := 0 })
  (maxByFitness tour, draw.2)

/-- `PlacementGA._crossover`: uniform crossover over `parent1`'s key order,
50% chance per operation to swap the coordinate between the children. -/
def crossoverGA (p1 p2 : PlacementIndividual) (r : Rng) :
    (PlacementIndividual × PlacementIndividual) × Rng :=
  let step := p1.positions.foldl
    (fun (acc : List (Int × (Int × Int)) × List (Int × (Int × Int)) × Rng) kv =>
      let draw := acc.2.2.nextFloat
      let v2 := (alookup p2.positions kv.1).getD (0, 0)
      if draw.1 < 1 / 2 then
        (acc.1 ++ [kv], acc.2.1 ++ [(kv.1, v2)], draw.2)
      else
        (acc.1 ++ [(kv.1, v2)], acc.2.1 ++ [kv], draw.2))
    ([], [], r)
  (({ positions := step.1, fitness := 0 },
    { positions := step.2.1, fitness := 0 }), step.2.2)

/-- `PlacementGA._mutate`: per-operation Gaussian displacement (as an
arbitrary integer from the oracle) clamped into
`[0, chip_dim − module_dim]`. -/
def mutateGA (ga : PlacementGA) (ind : PlacementIndividual) (r : Rng) :
    PlacementIndividual × Rng :=
  let step := ind.positions.foldl
    (fun (acc : List (Int × (Int × Int)) × Rng) kv =>
      let draw := acc.2.nextFloat
      if draw.1 < ga.mutation_rate then
        let d1 := draw.2.nextGauss
        let d2 := d1.2.nextGauss
        let m := modOf ga (opOf ga kv.1).module_type
        let nx := kv.2.1 + d1.1
        let ny := kv.2.2 + d2.1
        let mx := ga.problem.chip_width - m.width
        let my := ga.problem.chip_height - m.height
        (acc.1 ++ [(kv.1, (max 0 (min nx mx), max 0 (min ny my)))], d2.2)
      else (acc.1 ++ [kv], draw.2)) ([], r)
  ({ positions := step.1, fitness := ind.fitness }, step.2)

/-- One individual of `PlacementGA._init_population` (fused with the initial
fitness evaluation `solve` performs before the first generation). -/
def initIndividual (ga : PlacementGA) (r : Rng) : PlacementIndividual × Rng :=
  let step := ga.problem.operations.foldl
    (fun (acc : List (Int × (Int × Int)) × Rng) op =>
      let m := modOf ga op.module_type
      let mx := ga.problem.chip_width - m.width
      let my := ga.problem.chip_height - m.height
      if 0 ≤ mx ∧ 0 ≤ my then
        let i1 := acc.2.nextPick
        let i2 := i1.2.nextPick
        (acc.1 ++ [(op.id, (((i1.1 % (mx.toNat + 1) : Nat) : Int),
                            ((i2.1 % (my.toNat + 1) : Nat) : Int)))], i2.2)
      else (acc.1 ++ [(op.id, ((0 : Int), (0 : Int)))], acc.2))
    ([], r)
  ({ positions := step.1, fitness := evaluateGA ga step.1 }, step.2)

/-- `PlacementGA._init_population`. -/
def initPopulation (ga : PlacementGA) (r : Rng) :
    List PlacementIndividual × Rng :=
  (List.range ga.pop_size).foldl
    (fun (acc : List PlacementIndividual × Rng) _ =>
      let step := initIndividual ga acc.2
      (acc.1 ++ [step.1], step.2)) ([], r)

/-- `population.sort(key=lambda x: x.fitness, reverse=True)`: stable
descending sort by fitness. -/
def sortDescFitness (pop : List PlacementIndividual) :
    List PlacementIndividual :=
  sortBy (fun a b => b.fitness ≤ a.fitness) pop

/-- One round of the offspring `while` loop of `solve`: select two parents
by tournament, apply crossover with probability `crossover_rate` (else clone
both parents), mutate both children, evaluate them. -/
def breedRound (ga : PlacementGA) (pop : List PlacementIndividual) (r : Rng) :
    (PlacementIndividual × PlacementIndividual) × Rng :=
  let s1 := tournamentSelect ga pop r
  let s2 := tournamentSelect ga pop s1.2
  let roll := s2.2.nextFloat
  let cross :=
    if roll.1 < ga.crossover_rate then crossoverGA s1.1 s2.1 roll.2
    else ((s1.1.copy, s2.1.copy), roll.2)
  let m1 := mutateGA ga cross.1.1 cross.2
  let m2 := mutateGA ga cross.1.2 m1.2
  (({ m1.1 with fitness := evaluateGA ga m1.1.positions },
    { m2.1 with fitness := evaluateGA ga m2.1.positions }), m2.2)

/-- The offspring `while len(new_population) < self.pop_size` loop of
`solve`, starting from the copied elites and appending two offspring per
round.  The fuel `pop_size` suffices since every round adds two. -/
def breedLoop (ga : PlacementGA) (pop : List PlacementIndividual) :
    List PlacementIndividual → Rng → Nat → List PlacementIndividual × Rng
  | newPop, r, 0 => (newPop, r)
  | newPop, r, fuel + 1 =>
      if ga.pop_size ≤ newPop.length then (newPop, r)
      else
        let round := breedRound ga pop r
        breedLoop ga pop (newPop ++ [round.1.1, round.1.2]) round.2 fuel

/-- One generation of `PlacementGA.solve`: sort descending by fitness,
record the best fitness, copy the top-`elitism` individuals unchanged, breed
until the population is refilled, truncate to `pop_size`.  Returns the next
population and the recorded best fitness. -/
def gaGeneration (ga : PlacementGA) (pop : List PlacementIndividual)
    (r : Rng) : (List PlacementIndividual × ℚ) × Rng :=
  let sorted := sortDescFitness pop
  let best := (listMaxQ (sorted.map PlacementIndividual.fitness)).getD 0
  let elites := (sorted.take ga.elitism).map PlacementIndividual.copy
  let bred := breedLoop ga sorted elites r ga.pop_size
  ((bred.1.take ga.pop_size, best), bred.2)

/-- The generation loop of `solve`, accumulating the
`history['best_fitness']` list. -/
def gaLoop (ga : PlacementGA) :
    List PlacementIndividual → Rng → Nat → List ℚ →
    List ℚ × List PlacementIndividual × Rng
  | pop, r, 0, hist => (hist, pop, r)
  | pop, r, g + 1, hist =>
      let step := gaGeneration ga pop r
      gaLoop ga step.1.1 step.2 g (hist ++ [step.1.2])

/-- `PlacementGA.solve`: initialize and evaluate the population, run the
generation loop, and return the recorded best-fitness history together with
the final best individual. -/
def gaSolve (ga : PlacementGA) (r : Rng) : List ℚ × PlacementIndividual :=
  let ip := initPopulation ga r
  let res := gaLoop ga ip.1 ip.2 ga.generations []
  (res.1, (sortDescFitness res.2.1).headD { positions := [], fitness := 0 })

/-! ## Route path properties (the objects of C4 and C5) -/

/-- The space-time position of a search node. -/
def nodePos (n : ANode) : Pos := (n.x, n.y, n.t)

/-- All checks `route_single` applies to a candidate neighbour state:
deadline, grid bounds, static obstacles, and the reservation /
fluidic-constraint tables. -/
def posChecks (rs : RouterState) (drop : Droplet) (avoid : List Int)
    (k : Pos) : Prop :=
  k.2.2 ≤ drop.deadline ∧
  (0 ≤ k.1 ∧ k.1 < rs.width ∧ 0 ≤ k.2.1 ∧ k.2.1 < rs.height) ∧
  ¬ rs.static_obstacles.contains (k.1, k.2.1) ∧
  isValidMove rs k.1 k.2.1 k.2.2 drop.id avoid = true

/-- The well-formedness C4 claims of every returned path: the first entry is
the droplet's start cell at its earliest-depart tick, the last entry's cell
is the destination, and consecutive entries differ by one of the five moves
in space and by exactly `+1` in tick. -/
def WellformedPath (drop : Droplet) (p : List Pos) : Prop :=
  p.head? = some (drop.start.1, drop.start.2, drop.start_time) ∧
  (∃ q, p.getLast? = some q ∧ q.1 = drop.dest.1 ∧ q.2.1 = drop.dest.2) ∧
  List.Chain' (fun a b =>
    (b.1 - a.1, b.2.1 - a.2.1) ∈ moveDirs ∧ b.2.2 = a.2.2 + 1) p

/-- Parent steps recorded in `came_from` move by one of the five directions,
advance the tick by exactly one, and never go below the start tick. -/
def stepOk (stime : Int) (cf : List (Pos × Pos)) : Prop :=
  ∀ k v, alookup cf k = some v →
    (k.1 - v.1, k.2.1 - v.2.1) ∈ moveDirs ∧ k.2.2 = v.2.2 + 1 ∧ stime ≤ v.2.2

/-- Every recorded parent is the start state or is itself recorded. -/
def closureOk (startP : Pos) (cf : List (Pos × Pos)) : Prop :=
  ∀ k v, alookup cf k = some v → v = startP ∨ (alookup cf v).isSome

/-- Every recorded key passed all neighbour checks. -/
def validOk (rs : RouterState) (drop : Droplet) (avoid : List Int)
    (cf : List (Pos × Pos)) : Prop :=
  ∀ k, (alookup cf k).isSome → posChecks rs drop avoid k

/-- Every queued node is the start state or a recorded key, and is not
before the start tick. -/
def openOk (startP : Pos) (stime : Int) (cf : List (Pos × Pos))
    (openS : List OpenEntry) : Prop :=
  ∀ e ∈ openS, (nodePos e.2.2 = startP ∨ (alookup cf (nodePos e.2.2)).isSome) ∧
    stime ≤ e.2.2.t

/-- The full A*-loop invariant. -/
def AInv (rs : RouterState) (drop : Droplet) (avoid : List Int)
    (startP : Pos) (stime : Int) (openS : List OpenEntry)
    (cf : List (Pos × Pos)) : Prop :=
  stepOk stime cf ∧ closureOk startP cf ∧ validOk rs drop avoid cf ∧
  openOk startP stime cf openS

/-- Every non-null path of a multi-droplet result belongs to one of the
routed droplets and is well-formed. -/
def GoodRes (droplets : List Droplet)
    (results : List (Int × Option (List Pos))) : Prop :=
  ∀ i p, (i, some p) ∈ results →
    ∃ d ∈ droplets, d.id = i ∧ WellformedPath d p

/-- The 5×1 grid of the concrete two-droplet routing scenario. -/
def rsW5 : RouterState :=
  { width := 5, height := 1, static_obstacles := [], reservations := [],
    blocked_cells := [] }

/-- Earlier-deadline droplet of the scenario: routed first. -/
def dropA : Droplet :=
  { id := 1, start := (0, 0), dest := (2, 0), start_time := 0, deadline := 10 }

/-- Later-deadline droplet of the scenario: starts (and ends) on a cell-tick
reserved by the first droplet. -/
def dropB : Droplet :=
  { id := 2, start := (1, 0), dest := (1, 0), start_time := 1, deadline := 20 }

/-- An operation referencing a module type that the library does not
contain, used to refute the module-type clause of C3. -/
def c3Op : Operation := { id := 1, op_type := "mix", module_type := "mixer" }

/-- A valid instance with an empty (but non-`None`) droplet list, used to
refute the round-trip claim C2. -/
def c2Problem : DMFBProblem :=
  { name := "p", chip_width := 4, chip_height := 4,
    modules := [("m1", { name := "m1", type := .mixer, width := 2, height := 2,
                         exec_time := 3 })],
    operations := [{ id := 1, op_type := "mix", module_type := "m1" }],
    droplets := some [] }

/-! ## Concrete instances and predicates referenced by the theorems -/

/-- The module of the C7 chain scenario. -/
def chainModule : Module :=
  { name := "mixer1", type := .mixer, width := 2, height := 2, exec_time := 3 }

/-- One link of the C7 chain: duration override 5. -/
def chainOp (i : Int) (deps : List Int) : Operation :=
  { id := i, op_type := "mix", module_type := "mixer1", dependencies := deps,
    duration := some 5 }

/-- The C7 scenario: a 5-operation linear dependency chain, every operation
of duration 5. -/
def chainProblem : DMFBProblem :=
  { name := "chain", chip_width := 10, chip_height := 10,
    modules := [("mixer1", chainModule)],
    operations := [chainOp 1 [], chainOp 2 [1], chainOp 3 [2], chainOp 4 [3],
                   chainOp 5 [4]],
    droplets := none }

/-- `max(fitnesses)` of a population (0 on the unreachable empty case). -/
def bestF (pop : List PlacementIndividual) : ℚ :=
  (listMaxQ (pop.map PlacementIndividual.fitness)).getD 0

/-- The tiny instance of the C6 witness run. -/
def gaWProblem : DMFBProblem :=
  { name := "w", chip_width := 4, chip_height := 4,
    modules := [("m1", { name := "m1", type := .mixer, width := 2, height := 2,
                         exec_time := 3 })],
    operations := [{ id := 1, op_type := "mix", module_type := "m1" }],
    droplets := none }

/-- GA parameters of the C6 witness run. -/
def gaW : PlacementGA :=
  { problem := gaWProblem, pop_size := 2, generations := 2,
    crossover_rate := 4 / 5, mutation_rate := 1 / 5, elitism := 1,
    tournament_size := 2, penalty_overlap := 1000, penalty_boundary := 500 }

/-- A concrete random oracle for the C6 witness run. -/
def rngW : Rng :=
  { floats := fun _ => 1 / 3, gaussInts := fun _ => 1, picks := fun _ => 0 }

/-- The invariant C1 asserts of the partial schedule: every scheduled
operation has window length equal to its resolved duration, and starts no
earlier than the end of each of its (already scheduled) dependencies. -/
def SchedInv (p : DMFBProblem) (st : SchedLoopState) : Prop :=
  ∀ op ∈ p.operations, ∀ s e, alookup st.schedule op.id = some (s, e) →
    op.get_duration p.modules = some (e - s) ∧
    ∀ d ∈ op.dependencies, ∃ ds de, alookup st.schedule d = some (ds, de) ∧
      de ≤ s

/-- Every completed operation is scheduled. -/
def CompletedSub (st : SchedLoopState) : Prop :=
  ∀ c ∈ st.completed, (alookup st.schedule c).isSome

/-- A scheduler record over the chain instance (the priority tables do not
affect the C1 invariant). -/
def schW : Scheduler :=
  { problem := chainProblem, module_instances := [], asap := [], alap := [] }

/-! ## Theorems -/

theorem insertBy_perm {α : Type} (le : α → α → Bool) (x : α) (l : List α) :
    List.Perm (insertBy le x l) (x :: l) := by
  induction l with
  | nil => simp [insertBy]
  | cons y ys ih =>
      simp only [insertBy]
      by_cases h : le x y
      · simp [h]
      · simp only [h]
        exact ((ih.cons y).trans (List.Perm.swap x y ys)).symm.symm

theorem sortBy_perm {α : Type} (le : α → α → Bool) (l : List α) :
    List.Perm (sortBy le l) l := by
  induction l with
  | nil => simp [sortBy]
  | cons x xs ih =>
      exact (insertBy_perm le x (sortBy le xs)).trans (ih.cons x)

theorem insertBy_sorted {α : Type} (le : α → α → Bool)
    (htot : ∀ a b, le a b = true ∨ le b a = true)
    (htrans : ∀ a b c, le a b = true → le b c = true → le a c = true)
    (x : α) (l : List α) (hl : List.Pairwise (fun a b => le a b = true) l) :
    List.Pairwise (fun a b => le a b = true) (insertBy le x l) := by
  induction l with
  | nil => simp [insertBy]
  | cons y ys ih =>
      simp only [insertBy]
      by_cases h : le x y
      · simp only [h, if_true]
        constructor
        · intro b hb
          rcases List.mem_cons.mp hb with rfl | hb
          · exact h
          · exact htrans x y b h (List.rel_of_pairwise_cons hl hb)
        · exact hl
      · simp only [h, if_false]
        have hyx : le y x = true := by
          rcases htot x y with h' | h'
          · exact absurd h' h
          · exact h'
        constructor
        · intro b hb
          have hb' := (insertBy_perm le x ys).mem_iff.mp hb
          rcases List.mem_cons.mp hb' with rfl | hb''
          · exact hyx
          · exact List.rel_of_pairwise_cons hl hb''
        · exact ih (List.Pairwise.of_cons hl)

theorem sortBy_sorted {α : Type} (le : α → α → Bool)
    (htot : ∀ a b, le a b = true ∨ le b a = true)
    (htrans : ∀ a b c, le a b = true → le b c = true → le a c = true)
    (l : List α) :
    List.Pairwise (fun a b => le a b = true) (sortBy le l) := by
  induction l with
  | nil => simp [sortBy]
  | cons x xs ih => exact insertBy_sorted le htot htrans x (sortBy le xs) ih

theorem listMax_ge {l : List Int} {m : Int} (hm : listMax l = some m) :
    ∀ x ∈ l, x ≤ m := by
  cases l with
  | nil => simp [listMax] at hm
  | cons a as =>
      simp only [listMax, Option.some.injEq] at hm
      subst hm
      intro x hx
      have key : ∀ (l' : List Int) (b : Int), b ≤ l'.foldl max b ∧
          ∀ y ∈ l', y ≤ l'.foldl max b := by
        intro l'
        induction l' with
        | nil => intro b; exact ⟨le_refl b, by simp⟩
        | cons c cs ih =>
            intro b
            refine ⟨?_, ?_⟩
            · simp only [List.foldl_cons]
              exact le_trans (le_max_left b c) (ih (max b c)).1
            · intro y hy
              simp only [List.mem_cons] at hy
              rcases hy with rfl | hy
              · simp only [List.foldl_cons]
                exact le_trans (le_max_right b y) (ih (max b y)).1
              · exact (ih (max b c)).2 y hy
      rcases List.mem_cons.mp hx with rfl | hx
      · exact (key as x).1
      · exact (key as a).2 x hx

theorem listMaxQ_ge {l : List ℚ} {m : ℚ} (hm : listMaxQ l = some m) :
    ∀ x ∈ l, x ≤ m := by
  cases l with
  | nil => simp [listMaxQ] at hm
  | cons a as =>
      simp only [listMaxQ, Option.some.injEq] at hm
      subst hm
      intro x hx
      have key : ∀ (l' : List ℚ) (b : ℚ), b ≤ l'.foldl max b ∧
          ∀ y ∈ l', y ≤ l'.foldl max b := by
        intro l'
        induction l' with
        | nil => intro b; exact ⟨le_refl b, by simp⟩
        | cons c cs ih =>
            intro b
            refine ⟨?_, ?_⟩
            · simp only [List.foldl_cons]
              exact le_trans (le_max_left b c) (ih (max b c)).1
            · intro y hy
              simp only [List.mem_cons] at hy
              rcases hy with rfl | hy
              · simp only [List.foldl_cons]
                exact le_trans (le_max_right b y) (ih (max b y)).1
              · exact (ih (max b c)).2 y hy
      rcases List.mem_cons.mp hx with rfl | hx
      · exact (key as x).1
      · exact (key as a).2 x hx

theorem ModuleType.ofString_value (t : ModuleType) :
    ModuleType.ofString t.value = some t := by
  cases t <;> rfl

/-! ## Round-trip helper lemmas -/

theorem module_from_to_dict (m : Module) : Module.from_dict m.to_dict = some m := by
  simp [Module.from_dict, Module.to_dict, ModuleType.ofString_value]

theorem modules_from_to_dict (l : List (String × Module)) :
    mapOpt (fun kv => (Module.from_dict kv.2).map (fun m => (kv.1, m)))
      (l.map (fun kv => (kv.1, kv.2.to_dict))) = some l := by
  induction l with
  | nil => rfl
  | cons kv rest ih =>
      simp [mapOpt, module_from_to_dict, ih]

theorem operation_from_to_dict (op : Operation) :
    Operation.from_dict op.to_dict = op := rfl

theorem droplet_from_to_dict (d : Droplet) :
    Droplet.from_dict d.to_dict = d := rfl

/-! ## Claim theorems: validation and serialization -/

/-- C10: constructing a `DMFBProblem` with an empty operation list always
raises a `ValueError` during `__post_init__`, so every successfully
constructed instance has at least one operation. -/
theorem construction_rejects_empty_operations (name : String) (w h : Int)
    (modules : List (String × Module)) (droplets : Option (List Droplet)) :
    ∃ e, mkDMFBProblem name w h modules [] droplets = .error e := by
  unfold mkDMFBProblem postInit
  by_cases hd : w ≤ 0 ∨ h ≤ 0
  · exact ⟨"Chip dimensions must be positive", by simp [hd]⟩
  · exact ⟨"At least one operation required", by simp [hd]⟩

/-- C3 counterexample: an operation referencing a module type absent from
the (empty) module library constructs successfully — `__post_init__` never
checks module-type membership, refuting that clause of the claim. -/
theorem construction_accepts_unknown_module_type :
    mkDMFBProblem "p" 4 4 [] [c3Op] none =
      .ok { name := "p", chip_width := 4, chip_height := 4, modules := [],
            operations := [c3Op], droplets := none } := rfl

/-- C3 (amended): construction raises a validation error for a non-positive
grid dimension and for a dependency referencing an unknown operation id
(before any solver runs); the unknown-module-type case is not checked at
construction. -/
theorem construction_validation (name : String) (w h : Int)
    (modules : List (String × Module)) (ops : List Operation)
    (droplets : Option (List Droplet)) :
    (w ≤ 0 ∨ h ≤ 0 → ∃ e, mkDMFBProblem name w h modules ops droplets = .error e) ∧
    ((∃ op ∈ ops, ∃ d ∈ op.dependencies, d ∉ ops.map Operation.id) →
      ∃ e, mkDMFBProblem name w h modules ops droplets = .error e) := by
  constructor
  · intro hd
    exact ⟨"Chip dimensions must be positive", by simp [mkDMFBProblem, postInit, hd]⟩
  · intro ⟨op, hop, d, hd, hdid⟩
    unfold mkDMFBProblem postInit
    by_cases hdim : w ≤ 0 ∨ h ≤ 0
    · exact ⟨"Chip dimensions must be positive", by simp [hdim]⟩
    · have hne : ops ≠ [] := by
        intro h; subst h; simp at hop
      have hall : ¬ (∀ x ∈ ops, ∀ y ∈ x.dependencies, ∃ a ∈ ops, a.id = y) := by
        intro hcontra
        obtain ⟨a, ha, haid⟩ := hcontra op hop d hd
        exact hdid (haid ▸ List.mem_map_of_mem Operation.id ha)
      exact ⟨"depends on unknown operation", by simp [hdim, hne, hall]⟩

/-- Witness for C3 (amended): concrete instances triggering each validated
error class. -/
theorem construction_validation_witness :
    (∃ e, mkDMFBProblem "a" (-1) 3 [] [c3Op] none = .error e) ∧
    (∃ e, mkDMFBProblem "a" 3 3 []
        [{ id := 1, op_type := "mix", module_type := "mixer",
           dependencies := [99] }] none = .error e) :=
  ⟨(construction_validation "a" (-1) 3 [] [c3Op] none).1 (by decide),
   (construction_validation "a" 3 3 []
      [{ id := 1, op_type := "mix", module_type := "mixer",
         dependencies := [99] }] none).2
     ⟨{ id := 1, op_type := "mix", module_type := "mixer",
        dependencies := [99] }, by decide, 99, by decide, by decide⟩⟩

/-- C2 counterexample: a valid instance whose droplet list is empty (not
`None`) does not round trip — `to_dict` writes `None` for a falsy droplet
list, so `from_dict` rebuilds the instance with `droplets = None`. -/
theorem roundtrip_not_identity :
    ∃ p', DMFBProblem.from_dict (DMFBProblem.to_dict c2Problem) = .ok p' ∧
      p'.droplets ≠ c2Problem.droplets := by
  refine ⟨_, rfl, ?_⟩
  decide

/-- C2 (amended): for every instance passing construction validation whose
droplet list is not the empty list (i.e. is `None` or non-empty),
serializing with `to_dict` and deserializing with `from_dict` reproduces
the identical instance — modules, operations (with dependency lists,
duration overrides, inputs, outputs) and droplets. -/
theorem roundtrip_identity (p : DMFBProblem)
    (hvalid : postInit p = .ok ()) (hdrop : p.droplets ≠ some []) :
    DMFBProblem.from_dict (DMFBProblem.to_dict p) = .ok p := by
  obtain ⟨name, w, h, mods, ops, drops⟩ := p
  have hops : (ops.map Operation.to_dict).map Operation.from_dict = ops := by
    simp [operation_from_to_dict, Function.comp_def]
  cases drops with
  | none =>
      simp only [DMFBProblem.from_dict, DMFBProblem.to_dict, modules_from_to_dict,
        hops, mkDMFBProblem]
      rw [hvalid]
  | some ds =>
      have hds : ds ≠ [] := by
        intro hcon
        exact hdrop (by rw [hcon])
      have hmds : ds.map Droplet.to_dict ≠ [] := by simpa using hds
      have hback : (ds.map Droplet.to_dict).map Droplet.from_dict = ds := by
        simp [droplet_from_to_dict, Function.comp_def]
      simp only [DMFBProblem.from_dict, DMFBProblem.to_dict, modules_from_to_dict,
        hops, if_neg hds, if_neg hmds, hback, mkDMFBProblem]
      rw [hvalid]

/-- Witness for C2 (amended): a concrete valid instance with one droplet
round trips to itself. -/
theorem roundtrip_identity_witness :
    DMFBProblem.from_dict (DMFBProblem.to_dict
      { name := "w", chip_width := 6, chip_height := 5,
        modules := [("m1", { name := "m1", type := .heater, width := 1,
                             height := 2, exec_time := 4,
                             position := some (1, 2) })],
        operations := [{ id := 3, op_type := "heat", module_type := "m1",
                         dependencies := [], duration := some 7,
                         inputs := [1], outputs := [2] }],
        droplets := some [{ id := 1, start := (0, 0), dest := (3, 4),
                            start_time := 2, deadline := 9,
                            operation_id := some 3, volume := 1,
                            path := [(0, 0, 2)] }] }) =
    .ok { name := "w", chip_width := 6, chip_height := 5,
          modules := [("m1", { name := "m1", type := .heater, width := 1,
                               height := 2, exec_time := 4,
                               position := some (1, 2) })],
          operations := [{ id := 3, op_type := "heat", module_type := "m1",
                           dependencies := [], duration := some 7,
                           inputs := [1], outputs := [2] }],
          droplets := some [{ id := 1, start := (0, 0), dest := (3, 4),
                              start_time := 2, deadline := 9,
                              operation_id := some 3, volume := 1,
                              path := [(0, 0, 2)] }] } :=
  roundtrip_identity _ rfl (by decide)

/-! ## Claim theorems: degenerate routing (C9) -/

/-- C9: when a droplet's start cell equals its destination, `route_single`
returns the single-entry path `[(x, y, start_time)]` unconditionally — the
goal test fires on the initial state before any bounds, obstacle,
reservation or deadline check. -/
theorem routeSingle_start_eq_dest (rs : RouterState) (drop : Droplet)
    (avoid : List Int) (fuel : Nat) (hse : drop.start = drop.dest)
    (hfuel : 1 ≤ fuel) :
    routeSingle rs drop avoid fuel =
      some [(drop.start.1, drop.start.2, drop.start_time)] := by
  obtain ⟨f, rfl⟩ : ∃ f, fuel = f + 1 := ⟨fuel - 1, by omega⟩
  have hgoal : (drop.start.1, drop.start.2) = drop.dest := by
    rw [← hse]
  simp [routeSingle, astarLoop, popMin, hgoal, reconstructPath, chainFrom, alookup]

/-- Witness for C9: the start cell is a static obstacle, is reserved by
another droplet, and the start time already exceeds the deadline — the
degenerate single-entry path is returned anyway. -/
theorem routeSingle_start_eq_dest_witness :
    routeSingle
      { width := 3, height := 3, static_obstacles := [(2, 2)],
        reservations := [(((2, 2, 5) : Pos), 7)], blocked_cells := [] }
      { id := 1, start := (2, 2), dest := (2, 2), start_time := 5,
        deadline := 0 }
      [] 3 = some [(2, 2, 5)] :=
  routeSingle_start_eq_dest _ _ _ _ rfl (by decide)

/-- C7: on the 5-operation linear chain with duration 5, unlimited resources
(empty instance map) and the `asap` strategy, the scheduler returns makespan
25 and assigns operation `i` the window `((i−1)·5, i·5)`. -/
theorem chain_schedule :
    ∃ s r, mkScheduler chainProblem [] = Except.ok s ∧
      solveSched s "asap" 20 = some r ∧
      r.makespan = 25 ∧
      alookup r.schedule 1 = some (0, 5) ∧
      alookup r.schedule 2 = some (5, 10) ∧
      alookup r.schedule 3 = some (10, 15) ∧
      alookup r.schedule 4 = some (15, 20) ∧
      alookup r.schedule 5 = some (20, 25) := by
  exact ⟨_, _, rfl, rfl, by decide, by decide, by decide, by decide, by decide,
    by decide⟩

/-! ## Claim theorems: GA elitism monotonicity (C6) -/

theorem listMaxQ_mem {l : List ℚ} {m : ℚ} (hm : listMaxQ l = some m) : m ∈ l := by
  cases l with
  | nil => simp [listMaxQ] at hm
  | cons a as =>
      simp only [listMaxQ, Option.some.injEq] at hm
      subst hm
      have key : ∀ (l' : List ℚ) (b : ℚ), l'.foldl max b = b ∨ l'.foldl max b ∈ l' := by
        intro l'
        induction l' with
        | nil => intro b; exact Or.inl rfl
        | cons c cs ih =>
            intro b
            simp only [List.foldl_cons]
            rcases ih (max b c) with h | h
            · rcases max_choice b c with hb | hc
              · exact Or.inl (h.trans hb)
              · exact Or.inr (by rw [h, hc]; exact List.mem_cons_self c cs)
            · exact Or.inr (List.mem_cons_of_mem c h)
      rcases key as a with h | h
      · rw [h]; exact List.mem_cons_self a as
      · exact List.mem_cons_of_mem a h

theorem listMaxQ_eq_of {l : List ℚ} {m : ℚ} (hmem : m ∈ l)
    (hub : ∀ x ∈ l, x ≤ m) : listMaxQ l = some m := by
  have hne : l ≠ [] := by rintro rfl; simp at hmem
  match hl : listMaxQ l with
  | none => cases l with
      | nil => exact absurd rfl hne
      | cons a as => simp [listMaxQ] at hl
  | some M =>
      have h1 : M ∈ l := listMaxQ_mem hl
      have h2 : m ≤ M := listMaxQ_ge hl m hmem
      have h3 : M ≤ m := hub M h1
      rw [le_antisymm h2 h3]

theorem listMaxQ_perm {l l' : List ℚ} (h : l.Perm l') :
    listMaxQ l = listMaxQ l' := by
  match hl : listMaxQ l with
  | none =>
      cases l with
      | nil =>
          have hl' : l' = [] := h.symm.eq_nil
          subst hl'
          rfl
      | cons a as => simp [listMaxQ] at hl
  | some m =>
      have hmem : m ∈ l' := h.mem_iff.mp (listMaxQ_mem hl)
      have hub : ∀ x ∈ l', x ≤ m := fun x hx =>
        listMaxQ_ge hl x (h.mem_iff.mpr hx)
      exact (listMaxQ_eq_of hmem hub).symm

theorem sortDescFitness_perm (pop : List PlacementIndividual) :
    (sortDescFitness pop).Perm pop := sortBy_perm _ _

theorem sortDescFitness_head_max (pop : List PlacementIndividual)
    (h : pop ≠ []) :
    ∃ hd rest, sortDescFitness pop = hd :: rest ∧
      ∀ x ∈ pop, x.fitness ≤ hd.fitness := by
  have hperm := sortDescFitness_perm pop
  have hsorted : List.Pairwise
      (fun a b => (decide (b.fitness ≤ a.fitness) : Bool) = true)
      (sortDescFitness pop) :=
    sortBy_sorted _
      (fun a b => by
        rcases le_total b.fitness a.fitness with hle | hle
        · exact Or.inl (by simpa using hle)
        · exact Or.inr (by simpa using hle))
      (fun a b c hab hbc => by
        simp only [decide_eq_true_eq] at hab hbc ⊢
        exact le_trans hbc hab) pop
  match hs : sortDescFitness pop with
  | [] =>
      rw [hs] at hperm
      exact absurd hperm.symm.eq_nil h
  | hd :: rest =>
      rw [hs] at hperm hsorted
      refine ⟨hd, rest, rfl, ?_⟩
      intro x hx
      have hx' : x ∈ hd :: rest := hperm.symm.mem_iff.mp hx
      rcases List.mem_cons.mp hx' with rfl | hx''
      · exact le_refl _
      · have hrel := List.rel_of_pairwise_cons hsorted hx''
        simpa using hrel

theorem breedLoop_prefix (ga : PlacementGA) (pop : List PlacementIndividual) :
    ∀ (fuel : Nat) (newPop : List PlacementIndividual) (r : Rng),
      ∃ ext, (breedLoop ga pop newPop r fuel).1 = newPop ++ ext := by
  intro fuel
  induction fuel with
  | zero => intro newPop r; exact ⟨[], by simp [breedLoop]⟩
  | succ f ih =>
      intro newPop r
      by_cases hlen : ga.pop_size ≤ newPop.length
      · exact ⟨[], by simp [breedLoop, hlen]⟩
      · simp only [breedLoop, hlen, if_false]
        obtain ⟨ext, hext⟩ := ih
          (newPop ++ [(breedRound ga pop r).1.1, (breedRound ga pop r).1.2])
          (breedRound ga pop r).2
        exact ⟨[(breedRound ga pop r).1.1, (breedRound ga pop r).1.2] ++ ext,
          by rw [hext, List.append_assoc]⟩

theorem gaGeneration_step (ga : PlacementGA) (pop : List PlacementIndividual)
    (r : Rng) (h1 : 1 ≤ ga.elitism) (h2 : ga.elitism ≤ ga.pop_size)
    (hne : pop ≠ []) :
    (gaGeneration ga pop r).1.1 ≠ [] ∧
    (gaGeneration ga pop r).1.2 = bestF pop ∧
    bestF pop ≤ bestF (gaGeneration ga pop r).1.1 := by
  obtain ⟨hd, rest, hs, hmax⟩ := sortDescFitness_head_max pop hne
  have hhd : hd ∈ pop := (sortDescFitness_perm pop).mem_iff.mp
    (by rw [hs]; exact List.mem_cons_self hd rest)
  have hbf : bestF pop = hd.fitness := by
    unfold bestF
    have hub : ∀ q ∈ pop.map PlacementIndividual.fitness, q ≤ hd.fitness := by
      intro q hq
      obtain ⟨x, hx, rfl⟩ := List.mem_map.mp hq
      exact hmax x hx
    rw [listMaxQ_eq_of (List.mem_map_of_mem _ hhd) hub]
    rfl
  have hrec : (gaGeneration ga pop r).1.2 = bestF pop := by
    show (listMaxQ ((sortDescFitness pop).map PlacementIndividual.fitness)).getD 0
        = bestF pop
    unfold bestF
    rw [listMaxQ_perm ((sortDescFitness_perm pop).map PlacementIndividual.fitness)]
  obtain ⟨k, hk⟩ : ∃ k, ga.elitism = k + 1 := ⟨ga.elitism - 1, by omega⟩
  have hmapcopy : ((sortDescFitness pop).take ga.elitism).map
      PlacementIndividual.copy = hd :: (rest.take k).map PlacementIndividual.copy := by
    rw [hs, hk, List.take_succ_cons, List.map_cons]
    rfl
  obtain ⟨ext, hext⟩ := breedLoop_prefix ga (sortDescFitness pop) ga.pop_size
    (((sortDescFitness pop).take ga.elitism).map PlacementIndividual.copy) r
  obtain ⟨m, hm⟩ : ∃ m, ga.pop_size = m + 1 := ⟨ga.pop_size - 1, by omega⟩
  have hnext : ∃ tl, (gaGeneration ga pop r).1.1 = hd :: tl := by
    show ∃ tl, ((breedLoop ga (sortDescFitness pop)
      (((sortDescFitness pop).take ga.elitism).map PlacementIndividual.copy) r
        ga.pop_size).1).take ga.pop_size = hd :: tl
    rw [hext, hmapcopy, hm]
    exact ⟨_, List.take_succ_cons⟩
  obtain ⟨tl, htl⟩ := hnext
  refine ⟨by rw [htl]; exact List.cons_ne_nil hd tl, hrec, ?_⟩
  rw [hbf, htl]
  unfold bestF
  match hM : listMaxQ ((hd :: tl).map PlacementIndividual.fitness) with
  | none => simp [listMaxQ] at hM
  | some M =>
      have hgm := listMaxQ_ge hM hd.fitness (by simp)
      simpa [hM] using hgm

theorem gaLoop_chain (ga : PlacementGA) (h1 : 1 ≤ ga.elitism)
    (h2 : ga.elitism ≤ ga.pop_size) :
    ∀ (g : Nat) (pop : List PlacementIndividual) (r : Rng) (hist : List ℚ),
      pop ≠ [] → List.Chain' (· ≤ ·) hist →
      (∀ x, hist.getLast? = some x → x ≤ bestF pop) →
      List.Chain' (· ≤ ·) (gaLoop ga pop r g hist).1 := by
  intro g
  induction g with
  | zero => intro pop r hist _ hchain _; exact hchain
  | succ n ih =>
      intro pop r hist hne hchain hlast
      obtain ⟨hne', hrec, hmono⟩ := gaGeneration_step ga pop r h1 h2 hne
      simp only [gaLoop]
      apply ih
      · exact hne'
      · rw [hrec, List.chain'_append]
        refine ⟨hchain, List.chain'_singleton _, ?_⟩
        intro x hx y hy
        simp only [List.head?_cons, Option.mem_def, Option.some.injEq] at hy
        subst hy
        exact hlast x hx
      · intro x hx
        rw [hrec, List.getLast?_concat] at hx
        obtain rfl : bestF pop = x := by injection hx
        exact hmono

theorem initPopulation_length (ga : PlacementGA) (r : Rng) :
    (initPopulation ga r).1.length = ga.pop_size := by
  unfold initPopulation
  have key : ∀ (l : List Nat) (acc : List PlacementIndividual) (r' : Rng),
      ((l.foldl (fun (acc' : List PlacementIndividual × Rng) _ =>
        ((acc'.1 ++ [(initIndividual ga acc'.2).1]),
         (initIndividual ga acc'.2).2)) (acc, r')).1).length =
      acc.length + l.length := by
    intro l
    induction l with
    | nil => intro acc r'; simp
    | cons x xs ih =>
        intro acc r'
        simp only [List.foldl_cons]
        rw [ih]
        simp
        omega
  rw [key]
  simp

/-- C6: for every GA run (over every random oracle) with `1 ≤ elitism ≤
pop_size`, the recorded best-fitness-per-generation sequence is
non-decreasing: elites are copied unchanged into the next generation, the
breeding loop only appends fresh offspring, and the truncation to `pop_size`
keeps the leading elite. -/
theorem ga_best_fitness_monotone (ga : PlacementGA) (r : Rng)
    (h1 : 1 ≤ ga.elitism) (h2 : ga.elitism ≤ ga.pop_size) :
    List.Chain' (· ≤ ·) (gaSolve ga r).1 := by
  unfold gaSolve
  apply gaLoop_chain ga h1 h2
  · intro hcon
    have hlen := initPopulation_length ga r
    rw [hcon] at hlen
    simp only [List.length_nil] at hlen
    omega
  · exact List.chain'_nil
  · intro x hx
    simp at hx

/-- Witness for C6: a concrete two-generation run. -/
theorem ga_best_fitness_monotone_witness :
    List.Chain' (· ≤ ·) (gaSolve gaW rngW).1 :=
  ga_best_fitness_monotone gaW rngW (by decide) (by decide)

/-! ## Claim theorems: schedule correctness invariant (C1) -/

theorem alookup_isSome_of_mem {α β : Type} [DecidableEq α]
    {l : List (α × β)} {k : α} {v : β} (h : (k, v) ∈ l) :
    (alookup l k).isSome := by
  induction l with
  | nil => simp at h
  | cons kv rest ih =>
      simp only [alookup]
      by_cases hk : k = kv.1
      · simp [hk]
      · simp only [hk, if_false]
        rcases List.mem_cons.mp h with heq | hmem
        · exact absurd (congrArg Prod.fst heq) hk
        · exact ih hmem

theorem opMapFind_mem {ops : List Operation} {i : Int} {op : Operation}
    (h : opMapFind ops i = some op) : op ∈ ops ∧ op.id = i := by
  unfold opMapFind at h
  refine ⟨List.mem_reverse.mp (List.mem_of_find?_eq_some h), ?_⟩
  have := List.find?_some h
  simpa using this

theorem depfold_step_ge (sched : List (Int × Int × Int)) :
    ∀ (deps : List Int) (acc : Int),
      acc ≤ deps.foldl (fun a dep =>
        match alookup sched dep with
        | some se => max a se.2
        | none => a) acc := by
  intro deps
  induction deps with
  | nil => intro acc; exact le_refl acc
  | cons x xs ih =>
      intro acc
      simp only [List.foldl_cons]
      refine le_trans ?_ (ih _)
      cases alookup sched x with
      | none => exact le_refl acc
      | some se => exact le_max_left acc se.2

theorem depfold_ge (sched : List (Int × Int × Int)) :
    ∀ (deps : List Int) (acc : Int) (d : Int) (ds de : Int),
      d ∈ deps → alookup sched d = some (ds, de) →
      de ≤ deps.foldl (fun a dep =>
        match alookup sched dep with
        | some se => max a se.2
        | none => a) acc := by
  intro deps
  induction deps with
  | nil => intro acc d ds de h; simp at h
  | cons x xs ih =>
      intro acc d ds de hmem hlk
      simp only [List.foldl_cons]
      rcases List.mem_cons.mp hmem with rfl | hmem'
      · rw [hlk]
        exact le_trans (le_max_right acc de) (depfold_step_ge sched xs _)
      · exact ih _ d ds de hmem' hlk

theorem scheduleReadyOp_inv (sch : Scheduler)
    (hnodup : (sch.problem.operations.map Operation.id).Nodup)
    (st : SchedLoopState) (i : Int)
    (hinv : SchedInv sch.problem st) (hcs : CompletedSub st)
    (hnone : (alookup st.schedule i).isNone)
    (hready : ∃ op ∈ sch.problem.operations, op.id = i ∧
      ∀ d ∈ op.dependencies, st.completed.contains d)
    (st' : SchedLoopState) (hso : scheduleReadyOp sch st i = some st') :
    SchedInv sch.problem st' ∧ CompletedSub st' ∧
    (∀ k, k ≠ i → alookup st'.schedule k = alookup st.schedule k) ∧
    (∀ c ∈ st.completed, c ∈ st'.completed) ∧
    (∀ c ∈ st'.completed, c = i ∨ c ∈ st.completed) := by
  obtain ⟨opr, hopr, hoprid, hdeps⟩ := hready
  unfold scheduleReadyOp at hso
  split at hso
  · exact Option.noConfusion hso
  rename_i op0 hfind
  split at hso
  · exact Option.noConfusion hso
  rename_i duration hdur
  obtain ⟨hop0mem, hop0id⟩ := opMapFind_mem hfind
  have hop0 : op0 = opr :=
    List.inj_on_of_nodup_map hnodup hop0mem hopr (by rw [hop0id, hoprid])
  -- name the earliest-dependency bound
  set ed := op0.dependencies.foldl (fun a dep =>
    match alookup st.schedule dep with
    | some se => max a se.2
    | none => a) st.currentTime with hed
  -- split on the module-availability computation; in either branch the
  -- result state is the recorded `(start, start + duration)` window with
  -- `earliest_dep ≤ start`
  have hstep : ∃ start avail', st' = SchedLoopState.mk
      ((i, start, start + duration) :: st.schedule)
      (if start + duration ≤ st.currentTime then i :: st.completed
        else st.completed)
      avail' st.currentTime ∧ ed ≤ start := by
    split at hso
    · refine ⟨ed, st.moduleAvail, ?_, le_refl ed⟩
      have hso' : some (SchedLoopState.mk
          ((i, ed, ed + duration) :: st.schedule)
          (if ed + duration ≤ st.currentTime then i :: st.completed
            else st.completed)
          st.moduleAvail st.currentTime) = some st' := hso
      injection hso' with h
      exact h.symm
    · rename_i count hni
      dsimp only at hso
      split at hso
      · exact Option.noConfusion hso
      rename_i start1 avail1 hnext
      split at hnext
      · exact Option.noConfusion hnext
      rename_i ea hmin
      injection hnext with hpair
      have h1 : max ed ea = start1 := congrArg Prod.fst hpair
      refine ⟨start1, avail1, ?_, ?_⟩
      · injection hso with h
        exact h.symm
      · rw [← h1]
        exact le_max_left ed ea
  obtain ⟨start, avail', hst', hstart⟩ := hstep
  -- the new operation's own id is not among its dependencies
  have hinotdep : ∀ d ∈ op0.dependencies, d ≠ i := by
    intro d hd hcon
    have hdc := hdeps d (hop0 ▸ hd)
    rw [hcon, List.elem_iff] at hdc
    obtain ⟨p2, hp2⟩ := Option.isSome_iff_exists.mp (hcs i hdc)
    rw [Option.isNone_iff_eq_none.mp hnone] at hp2
    exact Option.noConfusion hp2
  have hlookup' : ∀ k, k ≠ i →
      alookup st'.schedule k = alookup st.schedule k := by
    intro k hk
    rw [hst']
    simp [alookup, hk]
  have hlookupi : alookup st'.schedule i = some (start, start + duration) := by
    rw [hst']
    simp [alookup]
  constructor
  · -- SchedInv
    intro op hop s e hlk
    by_cases hopi : op.id = i
    · have hopeq : op = op0 :=
        List.inj_on_of_nodup_map hnodup hop hop0mem (by rw [hopi, hop0id])
      rw [hopi, hlookupi] at hlk
      injection hlk with hlk
      injection hlk with hl1 hl2
      subst hl1
      subst hl2
      refine ⟨?_, ?_⟩
      · rw [hopeq, hdur]
        congr 1
        ring
      intro d hd
      have hdc := hdeps d (hop0 ▸ hopeq ▸ hd)
      rw [List.elem_iff] at hdc
      obtain ⟨p2, hp2⟩ := Option.isSome_iff_exists.mp (hcs d hdc)
      have hdne : d ≠ i := hinotdep d (hopeq ▸ hd)
      refine ⟨p2.1, p2.2, by rw [hlookup' d hdne, hp2], ?_⟩
      calc p2.2 ≤ ed := by
            exact depfold_ge st.schedule op0.dependencies st.currentTime
              d p2.1 p2.2 (hopeq ▸ hd) (by rw [hp2])
        _ ≤ start := hstart
    · rw [hlookup' op.id hopi] at hlk
      obtain ⟨hd1, hd2⟩ := hinv op hop s e hlk
      refine ⟨hd1, ?_⟩
      intro d hd
      obtain ⟨ds, de, hde, hdle⟩ := hd2 d hd
      have hdne : d ≠ i := by
        intro hcon
        rw [hcon, Option.isNone_iff_eq_none.mp hnone] at hde
        exact Option.noConfusion hde
      exact ⟨ds, de, by rw [hlookup' d hdne]; exact hde, hdle⟩
  constructor
  · -- CompletedSub
    intro c hc
    rw [hst'] at hc
    simp only at hc
    by_cases hci : c = i
    · rw [hci, hlookupi]; rfl
    · rw [hlookup' c hci]
      apply hcs
      revert hc
      split
      · intro hc
        rcases List.mem_cons.mp hc with hc | hc
        · exact absurd hc hci
        · exact hc
      · intro hc; exact hc
  refine ⟨hlookup', ?_, ?_⟩
  · intro c hc
    rw [hst']
    simp only
    split
    · exact List.mem_cons_of_mem i hc
    · exact hc
  · intro c hc
    rw [hst'] at hc
    simp only at hc
    revert hc
    split
    · intro hc
      rcases List.mem_cons.mp hc with hc | hc
      · exact Or.inl hc
      · exact Or.inr hc
    · intro hc; exact Or.inr hc

theorem foldSched_inv (sch : Scheduler)
    (hnodup : (sch.problem.operations.map Operation.id).Nodup) :
    ∀ (l : List Int) (st : SchedLoopState),
      SchedInv sch.problem st → CompletedSub st → l.Nodup →
      (∀ i ∈ l, (alookup st.schedule i).isNone ∧ ¬ st.completed.contains i ∧
        ∃ op ∈ sch.problem.operations, op.id = i ∧
          ∀ d ∈ op.dependencies, st.completed.contains d) →
      ∀ st', foldOpt (scheduleReadyOp sch) st l = some st' →
        SchedInv sch.problem st' ∧ CompletedSub st' := by
  intro l
  induction l with
  | nil =>
      intro st hinv hcs _ _ st' hf
      simp only [foldOpt] at hf
      injection hf with hf
      exact hf ▸ ⟨hinv, hcs⟩
  | cons x xs ih =>
      intro st hinv hcs hnd hready st' hf
      simp only [foldOpt] at hf
      cases hso : scheduleReadyOp sch st x with
      | none => rw [hso] at hf; exact Option.noConfusion hf
      | some st1 =>
          rw [hso] at hf
          obtain ⟨hnx, hncx, hrx⟩ := hready x (List.mem_cons_self x xs)
          obtain ⟨hinv1, hcs1, hlook1, hcompmono, hcompsub⟩ :=
            scheduleReadyOp_inv sch hnodup st x hinv hcs hnx hrx st1 hso
          refine ih st1 hinv1 hcs1 (List.nodup_cons.mp hnd).2 ?_ st' hf
          intro j hj
          have hji : j ≠ x := by
            intro hcon
            exact (List.nodup_cons.mp hnd).1 (hcon ▸ hj)
          obtain ⟨hnj, hncj, opj, hopj, hopjid, hdepsj⟩ :=
            hready j (List.mem_cons_of_mem x hj)
          refine ⟨?_, ?_, opj, hopj, hopjid, ?_⟩
          · rw [hlook1 j hji]; exact hnj
          · intro hcon
            rw [List.elem_iff] at hcon
            rcases hcompsub j hcon with rfl | hmem
            · exact hji rfl
            · exact hncj (by rw [List.elem_iff]; exact hmem)
          · intro d hd
            have hdc := hdepsj d hd
            rw [List.elem_iff] at hdc ⊢
            exact hcompmono d hdc

theorem advanceClock_inv (p : DMFBProblem) (st st' : SchedLoopState)
    (hinv : SchedInv p st) (hcs : CompletedSub st)
    (hadv : advanceClock st = some st') :
    SchedInv p st' ∧ CompletedSub st' := by
  unfold advanceClock at hadv
  dsimp only at hadv
  split at hadv
  · exact Option.noConfusion hadv
  rename_i t hmin
  injection hadv with hadv
  subst hadv
  constructor
  · intro op hop s e hlk
    exact hinv op hop s e hlk
  · intro c hc
    simp only at hc
    rcases List.mem_append.mp hc with hc | hc
    · exact hcs c hc
    · obtain ⟨x, hx, hcx⟩ := List.mem_map.mp hc
      have hxmem : x ∈ st.schedule := List.mem_of_mem_filter hx
      subst hcx
      exact alookup_isSome_of_mem (l := st.schedule) (k := x.1) (v := x.2) hxmem

theorem schedLoop_inv (sch : Scheduler)
    (hnodup : (sch.problem.operations.map Operation.id).Nodup)
    (priorities : List (Int × Int)) :
    ∀ (fuel : Nat) (st : SchedLoopState),
      SchedInv sch.problem st → CompletedSub st →
      ∀ st', schedLoop sch priorities st fuel = some st' →
        SchedInv sch.problem st' ∧ CompletedSub st' := by
  intro fuel
  induction fuel with
  | zero => intro st _ _ st' h; exact Option.noConfusion h
  | succ f ih =>
      intro st hinv hcs st' h
      simp only [schedLoop] at h
      split at h
      · injection h with h; exact h ▸ ⟨hinv, hcs⟩
      · split at h
        · -- ready empty
          split at h
          · exact ih st hinv hcs st' h
          · split at h
            · exact Option.noConfusion h
            rename_i st1 hadv
            obtain ⟨hinv1, hcs1⟩ := advanceClock_inv sch.problem st st1 hinv hcs hadv
            exact ih st1 hinv1 hcs1 st' h
        · -- ready non-empty: schedule the sorted ready list, then recurse
          split at h
          · exact Option.noConfusion h
          rename_i st1 hfold
          have hndready : (sortBy (fun a b =>
              (alookup priorities b).getD 0 ≤ (alookup priorities a).getD 0)
              ((sch.problem.operations.filter (fun op =>
                ¬ st.completed.contains op.id ∧
                (alookup st.schedule op.id).isNone ∧
                op.dependencies.all (fun d => st.completed.contains d))).map
                  (·.id))).Nodup := by
            refine ((sortBy_perm _ _).nodup_iff).mpr ?_
            refine List.Nodup.sublist ?_ hnodup
            exact List.Sublist.map Operation.id (List.filter_sublist _)
          have hreadyprop : ∀ i ∈ (sortBy (fun a b =>
              (alookup priorities b).getD 0 ≤ (alookup priorities a).getD 0)
              ((sch.problem.operations.filter (fun op =>
                ¬ st.completed.contains op.id ∧
                (alookup st.schedule op.id).isNone ∧
                op.dependencies.all (fun d => st.completed.contains d))).map
                  (·.id))),
              (alookup st.schedule i).isNone ∧ ¬ st.completed.contains i ∧
              ∃ op ∈ sch.problem.operations, op.id = i ∧
                ∀ d ∈ op.dependencies, st.completed.contains d := by
            intro i hi
            have hi' := (sortBy_perm _ _).mem_iff.mp hi
            obtain ⟨op, hopf, hopid⟩ := List.mem_map.mp hi'
            obtain ⟨hopmem, hpred⟩ := List.mem_filter.mp hopf
            simp only [decide_eq_true_eq, Bool.and_eq_true, Bool.not_eq_true',
              List.all_eq_true] at hpred
            obtain ⟨hp1, hp2, hp3⟩ := hpred
            subst hopid
            exact ⟨hp2, hp1, op, hopmem, rfl, hp3⟩
          obtain ⟨hinv1, hcs1⟩ := foldSched_inv sch hnodup _ st hinv hcs
            hndready hreadyprop st1 hfold
          exact ih st1 hinv1 hcs1 st' h

/-- C1: for every scheduler state (in particular every one built by
`ListScheduler.__init__` on a valid instance with unique operation ids),
every strategy and every schedule produced by `solve`, each scheduled
operation's window length equals its resolved duration
(`duration` override if set, else the module default) and its start tick is
at least the end tick of every one of its dependencies (all of which are
scheduled). -/
theorem schedule_respects_dependencies (sch : Scheduler) (strategy : String)
    (fuel : Nat) (res : SchedResult)
    (hnodup : (sch.problem.operations.map Operation.id).Nodup)
    (hsolve : solveSched sch strategy fuel = some res) :
    ∀ op ∈ sch.problem.operations, ∀ s e,
      alookup res.schedule op.id = some (s, e) →
      op.get_duration sch.problem.modules = some (e - s) ∧
      ∀ d ∈ op.dependencies, ∃ ds de, alookup res.schedule d = some (ds, de) ∧
        de ≤ s := by
  unfold solveSched at hsolve
  split at hsolve
  · exact Option.noConfusion hsolve
  rename_i priorities hprior
  dsimp only at hsolve
  split at hsolve
  · exact Option.noConfusion hsolve
  rename_i stf hloop
  split at hsolve
  · exact Option.noConfusion hsolve
  rename_i ms hms
  injection hsolve with hsolve
  subst hsolve
  have hinv0 : SchedInv sch.problem (SchedLoopState.mk [] []
      (sch.problem.modules.map (fun kv =>
        match alookup sch.module_instances kv.1 with
        | none => (kv.1, [(0 : Int)])
        | some count => (kv.1, List.replicate count 0))) 0) := by
    intro op _ s e hlk
    simp [alookup] at hlk
  have hcs0 : CompletedSub (SchedLoopState.mk [] []
      (sch.problem.modules.map (fun kv =>
        match alookup sch.module_instances kv.1 with
        | none => (kv.1, [(0 : Int)])
        | some count => (kv.1, List.replicate count 0))) 0) := by
    intro c hc
    simp at hc
  obtain ⟨hinvf, _⟩ := schedLoop_inv sch hnodup priorities fuel _ hinv0 hcs0
    stf hloop
  intro op hop s e hlk
  exact hinvf op hop s e hlk

/-- Witness for C1: on the concrete chain run, operation 2 is scheduled on
`(5, 10)`, its window length is its duration 5, and its dependency 1 ends
by tick 5. -/
theorem schedule_respects_dependencies_witness :
    ∃ res, solveSched schW "asap" 20 = some res ∧
      (chainOp 2 [1]).get_duration chainProblem.modules = some (10 - 5) ∧
      ∃ ds de, alookup res.schedule 1 = some (ds, de) ∧ de ≤ 5 := by
  refine ⟨_, rfl, ?_⟩
  have happ := schedule_respects_dependencies schW "asap" 20 _ (by decide) rfl
  have h2 := happ (chainOp 2 [1]) (by decide) 5 10 (by decide)
  exact ⟨h2.1, h2.2 1 (by decide)⟩

/-! ## Claim theorems: A* path well-formedness (C4) -/

theorem alookup_cons_isSome {α β : Type} [DecidableEq α] {l : List (α × β)}
    {k x : α} {v : β} (h : (alookup l x).isSome) :
    (alookup ((k, v) :: l) x).isSome := by
  by_cases hx : x = k
  · simp [alookup, hx]
  · simp [alookup, hx, h]

theorem alookup_cons_self {α β : Type} [DecidableEq α] (l : List (α × β))
    (k : α) (v : β) : alookup ((k, v) :: l) k = some v := by
  simp [alookup]

theorem popMin_mem : ∀ {l : List OpenEntry} {e : OpenEntry}
    {rest : List OpenEntry}, popMin l = some (e, rest) →
    e ∈ l ∧ ∀ x ∈ rest, x ∈ l := by
  intro l
  induction l with
  | nil => intro e rest h; exact Option.noConfusion h
  | cons a as ih =>
      intro e rest h
      simp only [popMin] at h
      split at h
      · injection h with h
        injection h with h1 h2
        subst h1; subst h2
        exact ⟨List.mem_cons_self a as, by intro x hx; simp at hx⟩
      · rename_i m rest' hm
        split at h
        · injection h with h
          injection h with h1 h2
          subst h1; subst h2
          exact ⟨List.mem_cons_self a as, fun x hx => List.mem_cons_of_mem a hx⟩
        · injection h with h
          injection h with h1 h2
          subst h1; subst h2
          obtain ⟨hm1, hm2⟩ := ih hm
          refine ⟨List.mem_cons_of_mem a hm1, ?_⟩
          intro x hx
          rcases List.mem_cons.mp hx with rfl | hx'
          · exact List.mem_cons_self x as
          · exact List.mem_cons_of_mem a (hm2 x hx')

theorem expandStep_inv (rs : RouterState) (drop : Droplet) (avoid : List Int)
    (startP : Pos) (stime : Int) (cur : ANode) (closed : List (Pos × Nat))
    (st : List OpenEntry × Nat × List (Pos × Pos)) (d : Int × Int)
    (hd : d ∈ moveDirs)
    (hinv : AInv rs drop avoid startP stime st.1 st.2.2)
    (hcur : nodePos cur = startP ∨ (alookup st.2.2 (nodePos cur)).isSome)
    (hct : stime ≤ cur.t) :
    AInv rs drop avoid startP stime (expandStep rs drop avoid cur closed st d).1
      (expandStep rs drop avoid cur closed st d).2.2 ∧
    (nodePos cur = startP ∨
      (alookup (expandStep rs drop avoid cur closed st d).2.2
        (nodePos cur)).isSome) := by
  obtain ⟨hstep, hclosure, hvalid, hopen⟩ := hinv
  unfold expandStep
  dsimp only
  by_cases h1 : drop.deadline < cur.t + 1
  · rw [if_pos h1]; exact ⟨⟨hstep, hclosure, hvalid, hopen⟩, hcur⟩
  rw [if_neg h1]
  by_cases h2 : ¬ (0 ≤ cur.x + d.1 ∧ cur.x + d.1 < rs.width ∧
      0 ≤ cur.y + d.2 ∧ cur.y + d.2 < rs.height)
  · rw [if_pos h2]; exact ⟨⟨hstep, hclosure, hvalid, hopen⟩, hcur⟩
  rw [if_neg h2]
  by_cases h3 : rs.static_obstacles.contains (cur.x + d.1, cur.y + d.2) = true
  · rw [if_pos h3]; exact ⟨⟨hstep, hclosure, hvalid, hopen⟩, hcur⟩
  rw [if_neg h3]
  by_cases h4 : ¬ isValidMove rs (cur.x + d.1) (cur.y + d.2) (cur.t + 1)
      drop.id avoid = true
  · rw [if_pos h4]; exact ⟨⟨hstep, hclosure, hvalid, hopen⟩, hcur⟩
  rw [if_neg h4]
  by_cases h5 : (match alookup closed ((cur.x + d.1, cur.y + d.2, cur.t + 1) : Pos) with
      | some cg => decide (cg ≤ cur.g + 1)
      | none => false) = true
  · rw [if_pos h5]; exact ⟨⟨hstep, hclosure, hvalid, hopen⟩, hcur⟩
  rw [if_neg h5]
  dsimp only
  have hknew : ∀ x, x ≠ ((cur.x + d.1, cur.y + d.2, cur.t + 1) : Pos) →
      alookup ((((cur.x + d.1, cur.y + d.2, cur.t + 1) : Pos),
        (((cur.x, cur.y, cur.t)) : Pos)) :: st.2.2) x = alookup st.2.2 x := by
    intro x hx
    simp [alookup, hx]
  have hnewchecks : posChecks rs drop avoid (cur.x + d.1, cur.y + d.2, cur.t + 1) := by
    refine ⟨?_, ?_, ?_, ?_⟩
    · show cur.t + 1 ≤ drop.deadline
      omega
    · show 0 ≤ cur.x + d.1 ∧ cur.x + d.1 < rs.width ∧
        0 ≤ cur.y + d.2 ∧ cur.y + d.2 < rs.height
      tauto
    · show ¬ rs.static_obstacles.contains (cur.x + d.1, cur.y + d.2) = true
      exact h3
    · show isValidMove rs (cur.x + d.1) (cur.y + d.2) (cur.t + 1)
        drop.id avoid = true
      tauto
  refine ⟨⟨?_, ?_, ?_, ?_⟩, ?_⟩
  · -- stepOk
    intro k v hk
    by_cases hkx : k = ((cur.x + d.1, cur.y + d.2, cur.t + 1) : Pos)
    · subst hkx
      rw [alookup_cons_self] at hk
      injection hk with hk
      subst hk
      refine ⟨?_, by simp, by simpa using hct⟩
      have hxx : (cur.x + d.1 - cur.x, cur.y + d.2 - cur.y) = d := by
        obtain ⟨d1, d2⟩ := d
        simp
      simpa [hxx] using hd
    · rw [hknew k hkx] at hk
      exact hstep k v hk
  · -- closureOk
    intro k v hk
    by_cases hkx : k = ((cur.x + d.1, cur.y + d.2, cur.t + 1) : Pos)
    · subst hkx
      rw [alookup_cons_self] at hk
      injection hk with hk
      subst hk
      rcases hcur with hc | hc
      · exact Or.inl hc
      · exact Or.inr (alookup_cons_isSome hc)
    · rw [hknew k hkx] at hk
      rcases hclosure k v hk with hc | hc
      · exact Or.inl hc
      · exact Or.inr (alookup_cons_isSome hc)
  · -- validOk
    intro k hk
    by_cases hkx : k = ((cur.x + d.1, cur.y + d.2, cur.t + 1) : Pos)
    · subst hkx
      exact hnewchecks
    · rw [hknew k hkx] at hk
      exact hvalid k hk
  · -- openOk
    intro e he
    rcases List.mem_cons.mp he with rfl | he'
    · constructor
      · refine Or.inr ?_
        show (alookup (((cur.x + d.1, cur.y + d.2, cur.t + 1),
            ((cur.x, cur.y, cur.t) : Pos)) :: st.2.2)
            ((cur.x + d.1, cur.y + d.2, cur.t + 1) : Pos)).isSome = true
        rw [alookup_cons_self]
        rfl
      · show stime ≤ cur.t + 1
        omega
    · obtain ⟨h1, h2⟩ := hopen e he'
      refine ⟨?_, h2⟩
      rcases h1 with hc | hc
      · exact Or.inl hc
      · exact Or.inr (alookup_cons_isSome hc)
  · rcases hcur with hc | hc
    · exact Or.inl hc
    · exact Or.inr (alookup_cons_isSome hc)

theorem expandFold_inv (rs : RouterState) (drop : Droplet) (avoid : List Int)
    (startP : Pos) (stime : Int) (cur : ANode) (closed : List (Pos × Nat)) :
    ∀ (l : List (Int × Int)), (∀ d ∈ l, d ∈ moveDirs) →
      ∀ (st : List OpenEntry × Nat × List (Pos × Pos)),
      AInv rs drop avoid startP stime st.1 st.2.2 →
      (nodePos cur = startP ∨ (alookup st.2.2 (nodePos cur)).isSome) →
      stime ≤ cur.t →
      AInv rs drop avoid startP stime
        (l.foldl (expandStep rs drop avoid cur closed) st).1
        (l.foldl (expandStep rs drop avoid cur closed) st).2.2 := by
  intro l
  induction l with
  | nil => intro _ st hinv _ _; exact hinv
  | cons d ds ih =>
      intro hl st hinv hcur hct
      simp only [List.foldl_cons]
      obtain ⟨hinv', hcur'⟩ := expandStep_inv rs drop avoid startP stime cur
        closed st d (hl d (List.mem_cons_self d ds)) hinv hcur hct
      exact ih (fun x hx => hl x (List.mem_cons_of_mem d hx)) _ hinv' hcur' hct

theorem chainFrom_spec (cf : List (Pos × Pos)) (startP : Pos) (stime : Int)
    (hst : startP.2.2 = stime)
    (hstep : stepOk stime cf) (hclosure : closureOk startP cf) :
    ∀ (fuel : Nat) (n : Pos), (n = startP ∨ (alookup cf n).isSome) →
      (n.2.2 - stime).toNat < fuel →
      (startP :: (chainFrom cf n fuel).reverse).getLast? = some n ∧
      List.Chain' (fun a b => (b.1 - a.1, b.2.1 - a.2.1) ∈ moveDirs ∧
        b.2.2 = a.2.2 + 1) (startP :: (chainFrom cf n fuel).reverse) ∧
      ∀ e ∈ chainFrom cf n fuel, (alookup cf e).isSome := by
  have hkey_t : ∀ k : Pos, (alookup cf k).isSome → stime + 1 ≤ k.2.2 := by
    intro k hk
    obtain ⟨v, hv⟩ := Option.isSome_iff_exists.mp hk
    obtain ⟨_, ht, hvt⟩ := hstep k v hv
    omega
  have hstart_nokey : alookup cf startP = none := by
    cases hsk : alookup cf startP with
    | none => rfl
    | some v =>
        exact absurd (hkey_t startP (by rw [hsk]; rfl)) (by omega)
  intro fuel
  induction fuel with
  | zero => intro n _ hf; exact absurd hf (Nat.not_lt_zero _)
  | succ f ih =>
      intro n hn hf
      rcases hn with rfl | hkey
      · simp only [chainFrom, hstart_nokey]
        exact ⟨rfl, by simp, by intro e he; simp at he⟩
      · obtain ⟨v, hv⟩ := Option.isSome_iff_exists.mp hkey
        simp only [chainFrom, hv]
        obtain ⟨hdir, ht, hvt⟩ := hstep n v hv
        have hvn : v = startP ∨ (alookup cf v).isSome := hclosure n v hv
        have hvf : (v.2.2 - stime).toNat < f := by
          have h1 : stime + 1 ≤ n.2.2 := hkey_t n hkey
          omega
        obtain ⟨ihlast, ihchain, ihmem⟩ := ih v hvn hvf
        have hsplit : startP :: (n :: chainFrom cf v f).reverse =
            (startP :: (chainFrom cf v f).reverse) ++ [n] := by simp
        refine ⟨?_, ?_, ?_⟩
        · rw [hsplit]
          exact List.getLast?_concat _
        · rw [hsplit, List.chain'_append]
          refine ⟨ihchain, List.chain'_singleton n, ?_⟩
          intro x hx y hy
          rw [ihlast] at hx
          simp only [Option.mem_def, Option.some.injEq] at hx
          simp only [List.head?_cons, Option.mem_def, Option.some.injEq] at hy
          subst hx; subst hy
          exact ⟨hdir, ht⟩
        · intro e he
          rcases List.mem_cons.mp he with rfl | he'
          · rw [hv]; rfl
          · exact ihmem e he'

theorem astarLoop_spec (rs : RouterState) (drop : Droplet) (avoid : List Int) :
    ∀ (fuel : Nat) (openS : List OpenEntry) (counter : Nat)
      (closed : List (Pos × Nat)) (cf : List (Pos × Pos)) (p : List Pos),
      AInv rs drop avoid (drop.start.1, drop.start.2, drop.start_time)
        drop.start_time openS cf →
      astarLoop rs drop avoid openS counter closed cf fuel = some p →
      p.head? = some (drop.start.1, drop.start.2, drop.start_time) ∧
      (∃ q, p.getLast? = some q ∧ q.1 = drop.dest.1 ∧ q.2.1 = drop.dest.2) ∧
      List.Chain' (fun a b => (b.1 - a.1, b.2.1 - a.2.1) ∈ moveDirs ∧
        b.2.2 = a.2.2 + 1) p ∧
      ∀ e ∈ p.tail, posChecks rs drop avoid e := by
  intro fuel
  induction fuel with
  | zero => intro _ _ _ _ _ _ h; exact Option.noConfusion h
  | succ f ih =>
      intro openS counter closed cf p hinv h
      simp only [astarLoop] at h
      cases hpop : popMin openS with
      | none => rw [hpop] at h; exact Option.noConfusion h
      | some pr =>
          rw [hpop] at h
          obtain ⟨⟨fs, c, cur⟩, rest⟩ := pr
          obtain ⟨hmem, hsub⟩ := popMin_mem hpop
          obtain ⟨hstep, hclosure, hvalid, hopen⟩ := hinv
          obtain ⟨hcur, hct⟩ := hopen _ hmem
          dsimp only at h
          split at h
          · -- goal reached: reconstruct and apply the chain lemma
            rename_i hgoal
            injection h with h
            subst h
            obtain ⟨hlast, hchain, hmemc⟩ := chainFrom_spec cf
              (drop.start.1, drop.start.2, drop.start_time) drop.start_time rfl
              hstep hclosure ((cur.t - drop.start_time).toNat + 1)
              (cur.x, cur.y, cur.t) hcur (Nat.lt_succ_self _)
            refine ⟨rfl, ?_, hchain, ?_⟩
            · refine ⟨(cur.x, cur.y, cur.t), hlast, ?_, ?_⟩
              · exact congrArg Prod.fst hgoal
              · exact congrArg Prod.snd hgoal
            · intro e he
              simp only [reconstructPath, List.tail_cons] at he
              exact hvalid e (hmemc e (List.mem_reverse.mp he))
          · -- not the goal: closed-set skip or expansion
            split at h
            · exact ih rest counter closed cf p
                ⟨hstep, hclosure, hvalid, fun e he => hopen e (hsub e he)⟩ h
            · refine ih _ _ _ _ p ?_ h
              exact expandFold_inv rs drop avoid
                (drop.start.1, drop.start.2, drop.start_time) drop.start_time
                cur (((cur.x, cur.y, cur.t), cur.g) :: closed) moveDirs
                (fun x hx => hx) (rest, counter, cf)
                ⟨hstep, hclosure, hvalid, fun e he => hopen e (hsub e he)⟩
                hcur hct

theorem routeSingle_spec (rs : RouterState) (drop : Droplet) (avoid : List Int)
    (fuel : Nat) (p : List Pos) (h : routeSingle rs drop avoid fuel = some p) :
    p.head? = some (drop.start.1, drop.start.2, drop.start_time) ∧
    (∃ q, p.getLast? = some q ∧ q.1 = drop.dest.1 ∧ q.2.1 = drop.dest.2) ∧
    List.Chain' (fun a b => (b.1 - a.1, b.2.1 - a.2.1) ∈ moveDirs ∧
      b.2.2 = a.2.2 + 1) p ∧
    ∀ e ∈ p.tail, posChecks rs drop avoid e := by
  unfold routeSingle at h
  refine astarLoop_spec rs drop avoid fuel _ 0 [] [] p ⟨?_, ?_, ?_, ?_⟩ h
  · intro k v hk; simp [alookup] at hk
  · intro k v hk; simp [alookup] at hk
  · intro k hk; simp [alookup] at hk
  · intro e he
    simp only [List.mem_singleton] at he
    subst he
    exact ⟨Or.inl rfl, le_refl _⟩

theorem aset_mem {α β : Type} [DecidableEq α] :
    ∀ {l : List (α × β)} {k : α} {v : β} {x : α × β},
      x ∈ aset l k v → x = (k, v) ∨ x ∈ l := by
  intro l
  induction l with
  | nil =>
      intro k v x h
      simp only [aset] at h
      exact Or.inl (by simpa using h)
  | cons kv rest ih =>
      intro k v x h
      obtain ⟨k', w⟩ := kv
      simp only [aset] at h
      by_cases hk : k = k'
      · simp only [hk, if_true] at h
        rcases List.mem_cons.mp h with rfl | hx
        · exact Or.inl (by rw [hk])
        · exact Or.inr (List.mem_cons_of_mem _ hx)
      · simp only [hk, if_false] at h
        rcases List.mem_cons.mp h with rfl | hx
        · exact Or.inr (List.mem_cons_self _ _)
        · rcases ih hx with hx' | hx'
          · exact Or.inl hx'
          · exact Or.inr (List.mem_cons_of_mem _ hx')

theorem addReservations_lookup (i : Int) :
    ∀ (path : List Pos) (rs : RouterState) (e : Pos),
      alookup (addReservations rs i path).reservations e =
        if e ∈ path then some i else alookup rs.reservations e := by
  intro path
  induction path with
  | nil => intro rs e; simp [addReservations]
  | cons x xs ih =>
      intro rs e
      have hstep : addReservations rs i (x :: xs) =
          addReservations { rs with
            reservations := (x, i) :: rs.reservations,
            blocked_cells := fluidicOffsets.foldl (fun b d =>
              (((x.1 + d.1, x.2.1 + d.2, x.2.2) : Pos), i) :: b)
              rs.blocked_cells } i xs := rfl
      rw [hstep, ih]
      by_cases hex : e ∈ xs
      · simp [hex]
      · by_cases hexx : e = x
        · simp [hex, hexx, alookup, alookup_cons_self]
        · simp only [hex, if_false]
          have hne : e ∉ x :: xs := by
            intro hcon
            rcases List.mem_cons.mp hcon with rfl | hcon'
            · exact hexx rfl
            · exact hex hcon'
          simp only [hne, if_false]
          simp [alookup, hexx]

theorem routeAux_wellformed (fuel : Nat) :
    ∀ (ds : List Droplet) (rs : RouterState) (i : Int) (p : List Pos),
      (i, some p) ∈ (routePrioritizedAux fuel rs ds).1 →
      ∃ d ∈ ds, d.id = i ∧ WellformedPath d p := by
  intro ds
  induction ds with
  | nil => intro rs i p h; simp [routePrioritizedAux] at h
  | cons d rest ih =>
      intro rs i p h
      simp only [routePrioritizedAux] at h
      cases hr : routeSingle rs d [] fuel with
      | some q =>
          rw [hr] at h
          dsimp only at h
          rcases List.mem_cons.mp h with heq | hmem
          · have hi : i = d.id := congrArg Prod.fst heq
            have hp : some p = some q := congrArg Prod.snd heq
            injection hp with hp
            subst hp
            obtain ⟨hh, hl, hc, _⟩ := routeSingle_spec rs d [] fuel p hr
            exact ⟨d, List.mem_cons_self d rest, hi.symm, hh, hl, hc⟩
          · obtain ⟨d', hd', hid, hw⟩ := ih _ i p hmem
            exact ⟨d', List.mem_cons_of_mem d hd', hid, hw⟩
      | none =>
          rw [hr] at h
          dsimp only at h
          rcases List.mem_cons.mp h with heq | hmem
          · exact Option.noConfusion (congrArg Prod.snd heq)
          · obtain ⟨d', hd', hid, hw⟩ := ih _ i p hmem
            exact ⟨d', List.mem_cons_of_mem d hd', hid, hw⟩

theorem resolveConflict_good (droplets : List Droplet) (fuel : Nat)
    (acc : List (Int × Option (List Pos)) × RouterState) (c : Int × Int)
    (hg : GoodRes droplets acc.1) :
    GoodRes droplets (resolveConflict droplets fuel acc c).1 := by
  unfold resolveConflict
  dsimp only
  split
  · exact hg
  rename_i d hfind
  split
  · rename_i newp hroute
    intro i p hmem
    rcases aset_mem hmem with heq | hold
    · have hi : i = max c.1 c.2 := congrArg Prod.fst heq
      have hp : some p = some newp := congrArg Prod.snd heq
      injection hp with hp
      subst hp
      have hdid : d.id = max c.1 c.2 := by
        have := List.find?_some hfind
        simpa using this
      obtain ⟨hh, hl, hc, _⟩ := routeSingle_spec _ d _ fuel p hroute
      exact ⟨d, List.mem_of_find?_eq_some hfind, by rw [hdid, hi], hh, hl, hc⟩
    · exact hg i p hold
  · exact hg

theorem conflictFold_good (droplets : List Droplet) (fuel : Nat) :
    ∀ (cs : List (Int × Int)) (acc : List (Int × Option (List Pos)) × RouterState),
      GoodRes droplets acc.1 →
      GoodRes droplets (cs.foldl (resolveConflict droplets fuel) acc).1 := by
  intro cs
  induction cs with
  | nil => intro acc hg; exact hg
  | cons c cs' ih =>
      intro acc hg
      simp only [List.foldl_cons]
      exact ih _ (resolveConflict_good droplets fuel acc c hg)

theorem routeIterLoop_good (droplets : List Droplet) (fuel : Nat) :
    ∀ (iters : Nat) (st : List (Int × Option (List Pos)) × RouterState),
      GoodRes droplets st.1 →
      GoodRes droplets (routeIterLoop droplets fuel st iters).1 := by
  intro iters
  induction iters with
  | zero => intro st hg; exact hg
  | succ n ih =>
      intro st hg
      simp only [routeIterLoop]
      split
      · exact hg
      · exact ih _ (conflictFold_good droplets fuel _ st hg)

theorem routePrioritized_good (rs : RouterState) (droplets : List Droplet)
    (fuel : Nat) : GoodRes droplets (routePrioritized rs droplets fuel).1 := by
  intro i p hmem
  obtain ⟨d, hd, hid, hw⟩ := routeAux_wellformed fuel (sortByDeadline droplets)
    (clearTables rs) i p hmem
  exact ⟨d, (sortBy_perm _ _).mem_iff.mp hd, hid, hw⟩

/-- C4: every non-null path returned by `route_single` — and hence every
non-null path of a `route_multiple` result under either strategy — starts at
the droplet's start cell at its earliest-depart tick, ends on the
destination cell, and moves by one of
`{(+1,0),(−1,0),(0,+1),(0,−1),(0,0)}` in space and exactly `+1` in tick
between consecutive entries. -/
theorem route_paths_wellformed :
    (∀ (rs : RouterState) (drop : Droplet) (avoid : List Int) (fuel : Nat)
      (p : List Pos), routeSingle rs drop avoid fuel = some p →
      WellformedPath drop p) ∧
    (∀ (rs : RouterState) (droplets : List Droplet) (strategy : String)
      (fuel : Nat) (results : List (Int × Option (List Pos))),
      routeMultiple rs droplets strategy fuel = some results →
      ∀ i p, (i, some p) ∈ results →
        ∃ d ∈ droplets, d.id = i ∧ WellformedPath d p) := by
  constructor
  · intro rs drop avoid fuel p h
    obtain ⟨hh, hl, hc, _⟩ := routeSingle_spec rs drop avoid fuel p h
    exact ⟨hh, hl, hc⟩
  · intro rs droplets strategy fuel results h
    unfold routeMultiple at h
    split at h
    · injection h with h
      subst h
      exact routePrioritized_good rs droplets fuel
    · split at h
      · injection h with h
        subst h
        exact routeIterLoop_good droplets fuel 10 _
          (routePrioritized_good rs droplets fuel)
      · exact Option.noConfusion h

/-- Witness for C4: the concrete route of the two-droplet scenario's first
droplet is well-formed. -/
theorem route_paths_wellformed_witness :
    WellformedPath dropA [(0, 0, 0), (1, 0, 1), (2, 0, 2)] :=
  route_paths_wellformed.1 rsW5 dropA [] 12 _ rfl

/-! ## Claim theorems: prioritized reservation discipline (C5) -/

theorem routeAux_no_share (fuel : Nat) :
    ∀ (ds : List Droplet) (rs : RouterState),
      (ds.map Droplet.id).Nodup →
      (∀ e j, alookup rs.reservations e = some j → ∀ d ∈ ds, d.id ≠ j) →
      (∀ i p, (i, some p) ∈ (routePrioritizedAux fuel rs ds).1 →
        ∀ e ∈ p.tail, alookup rs.reservations e = none) ∧
      (∀ i p, (i, some p) ∈ (routePrioritizedAux fuel rs ds).1 →
        ∃ hd tl, p = hd :: tl) ∧
      (∀ i1 i2 p1 p2, (i1, some p1) ∈ (routePrioritizedAux fuel rs ds).1 →
        (i2, some p2) ∈ (routePrioritizedAux fuel rs ds).1 → i1 ≠ i2 →
        ∀ e, e ∈ p1 → e ∈ p2 → p1.head? = some e ∨ p2.head? = some e) := by
  intro ds
  induction ds with
  | nil =>
      intro rs _ _
      refine ⟨?_, ?_, ?_⟩
      · intro i p h; simp [routePrioritizedAux] at h
      · intro i p h; simp [routePrioritizedAux] at h
      · intro i1 i2 p1 p2 h1 _; simp [routePrioritizedAux] at h1
  | cons d rest ih =>
      intro rs hnd h1
      have hnd' : (d.id :: rest.map Droplet.id).Nodup := by simpa using hnd
      have hdid_notin : d.id ∉ rest.map Droplet.id := (List.nodup_cons.mp hnd').1
      have hndrest : (rest.map Droplet.id).Nodup := (List.nodup_cons.mp hnd').2
      simp only [routePrioritizedAux]
      cases hr : routeSingle rs d [] fuel with
      | none =>
          dsimp only
          have h1' : ∀ e j, alookup rs.reservations e = some j →
              ∀ d' ∈ rest, d'.id ≠ j := by
            intro e j hlk d' hd'
            exact h1 e j hlk d' (List.mem_cons_of_mem d hd')
          obtain ⟨ih1, ih2, ih3⟩ := ih rs hndrest h1'
          refine ⟨?_, ?_, ?_⟩
          · intro i p hmem
            rcases List.mem_cons.mp hmem with heq | hold
            · exact Option.noConfusion (congrArg Prod.snd heq)
            · exact ih1 i p hold
          · intro i p hmem
            rcases List.mem_cons.mp hmem with heq | hold
            · exact Option.noConfusion (congrArg Prod.snd heq)
            · exact ih2 i p hold
          · intro i1 i2 p1 p2 hm1 hm2 hne e he1 he2
            rcases List.mem_cons.mp hm1 with heq | hold1
            · exact Option.noConfusion (congrArg Prod.snd heq)
            rcases List.mem_cons.mp hm2 with heq | hold2
            · exact Option.noConfusion (congrArg Prod.snd heq)
            exact ih3 i1 i2 p1 p2 hold1 hold2 hne e he1 he2
      | some p =>
          dsimp only
          obtain ⟨hhead, _, _, htail⟩ := routeSingle_spec rs d [] fuel p hr
          have hpne : ∃ hd tl, p = hd :: tl := by
            cases p with
            | nil => exact Option.noConfusion hhead
            | cons a b => exact ⟨a, b, rfl⟩
          -- entries after the first are unreserved at routing time
          have hptail_none : ∀ e ∈ p.tail, alookup rs.reservations e = none := by
            intro e he
            cases hres : alookup rs.reservations e with
            | none => rfl
            | some j =>
                obtain ⟨_, _, _, hvm⟩ := htail e he
                have hres' : alookup rs.reservations (e.1, e.2.1, e.2.2) =
                    some j := hres
                unfold isValidMove at hvm
                rw [hres'] at hvm
                rw [Bool.and_eq_true] at hvm
                have hfirst := hvm.1
                rw [Bool.or_eq_true] at hfirst
                rcases hfirst with hfe | hfe
                · rw [decide_eq_true_eq] at hfe
                  exact absurd hfe.symm (h1 e j hres d (List.mem_cons_self d rest))
                · simp [List.contains] at hfe
          have h1' : ∀ e j,
              alookup (addReservations rs d.id p).reservations e = some j →
              ∀ d' ∈ rest, d'.id ≠ j := by
            intro e j hlk d' hd'
            rw [addReservations_lookup] at hlk
            by_cases hep : e ∈ p
            · rw [if_pos hep] at hlk
              injection hlk with hlk
              subst hlk
              intro hcon
              exact hdid_notin (hcon ▸ List.mem_map_of_mem Droplet.id hd')
            · rw [if_neg hep] at hlk
              exact h1 e j hlk d' (List.mem_cons_of_mem d hd')
          obtain ⟨ih1, ih2, ih3⟩ := ih (addReservations rs d.id p) hndrest h1'
          refine ⟨?_, ?_, ?_⟩
          · -- tail entries avoid the entry-time table
            intro i q hmem
            rcases List.mem_cons.mp hmem with heq | hold
            · have hq : some q = some p := congrArg Prod.snd heq
              injection hq with hq
              subst hq
              exact hptail_none
            · intro e he
              have hnone := ih1 i q hold e he
              rw [addReservations_lookup] at hnone
              by_cases hep : e ∈ p
              · rw [if_pos hep] at hnone
                exact Option.noConfusion hnone
              · rw [if_neg hep] at hnone
                exact hnone
          · -- every returned path is non-empty
            intro i q hmem
            rcases List.mem_cons.mp hmem with heq | hold
            · have hq : some q = some p := congrArg Prod.snd heq
              injection hq with hq
              subst hq
              exact hpne
            · exact ih2 i q hold
          · -- pairwise sharing only at a head
            intro i1 i2 p1 p2 hm1 hm2 hne e he1 he2
            rcases List.mem_cons.mp hm1 with heq1 | hold1 <;>
              rcases List.mem_cons.mp hm2 with heq2 | hold2
            · -- both the head droplet: contradicts i1 ≠ i2
              have hi1 : i1 = d.id := congrArg Prod.fst heq1
              have hi2 : i2 = d.id := congrArg Prod.fst heq2
              exact absurd (hi1.trans hi2.symm) hne
            · -- p1 is the head droplet's path, p2 comes later
              have hq : some p1 = some p := congrArg Prod.snd heq1
              injection hq with hq
              subst hq
              right
              obtain ⟨hd2, tl2, rfl⟩ := ih2 i2 p2 hold2
              rcases List.mem_cons.mp he2 with rfl | he2'
              · rfl
              · exfalso
                have hnone := ih1 i2 (hd2 :: tl2) hold2 e he2'
                rw [addReservations_lookup, if_pos he1] at hnone
                exact Option.noConfusion hnone
            · -- p2 is the head droplet's path, p1 comes later
              have hq : some p2 = some p := congrArg Prod.snd heq2
              injection hq with hq
              subst hq
              left
              obtain ⟨hd1, tl1, rfl⟩ := ih2 i1 p1 hold1
              rcases List.mem_cons.mp he1 with rfl | he1'
              · rfl
              · exfalso
                have hnone := ih1 i1 (hd1 :: tl1) hold1 e he1'
                rw [addReservations_lookup, if_pos he2] at hnone
                exact Option.noConfusion hnone
            · exact ih3 i1 i2 p1 p2 hold1 hold2 hne e he1 he2

/-- C5 (amended): under the prioritized strategy (droplets routed in
ascending deadline order, each committing its reservations before the next
is routed), two distinct droplets' returned paths never share a
`(cell, tick)` entry — except possibly at a path's first entry, because the
A* goal test and the initial state are exempt from every reservation
check. -/
theorem prioritized_no_shared_cell_tick (rs : RouterState)
    (droplets : List Droplet) (fuel : Nat)
    (hnodup : (droplets.map Droplet.id).Nodup) :
    ∀ i1 i2 p1 p2,
      (i1, some p1) ∈ (routePrioritized rs droplets fuel).1 →
      (i2, some p2) ∈ (routePrioritized rs droplets fuel).1 → i1 ≠ i2 →
      ∀ e, e ∈ p1 → e ∈ p2 →
        p1.head? = some e ∨ p2.head? = some e := by
  have hnd : ((sortByDeadline droplets).map Droplet.id).Nodup := by
    refine (List.Perm.nodup_iff ?_).mpr hnodup
    exact (sortBy_perm _ _).map Droplet.id
  have h1 : ∀ e j, alookup (clearTables rs).reservations e = some j →
      ∀ d ∈ sortByDeadline droplets, d.id ≠ j := by
    intro e j hlk
    simp [clearTables, alookup] at hlk
  obtain ⟨_, _, h3⟩ := routeAux_no_share fuel (sortByDeadline droplets)
    (clearTables rs) hnd h1
  exact h3

/-- C5 counterexample: in the two-droplet scenario the earlier-deadline
droplet 1 is routed first and reserves `(1,0)` at tick 1; the later droplet
2's returned path nevertheless contains exactly that reserved `(cell,tick)`
(its start entry), refuting the claim that a later droplet's path never
contains a reserved entry. -/
theorem prioritized_shares_reserved_cell :
    alookup (routePrioritized rsW5 [dropA, dropB] 12).1 1 =
      some (some [(0, 0, 0), (1, 0, 1), (2, 0, 2)]) ∧
    alookup (routePrioritized rsW5 [dropA, dropB] 12).1 2 =
      some (some [(1, 0, 1)]) ∧
    ((1, 0, 1) : Pos) ∈ [((0, 0, 0) : Pos), (1, 0, 1), (2, 0, 2)] ∧
    dropA.deadline < dropB.deadline := by
  refine ⟨rfl, rfl, by decide, by decide⟩

/-- Witness for C5 (amended): applied to the concrete scenario, where the
shared entry `(1,0,1)` is indeed droplet 2's first entry. -/
theorem prioritized_no_shared_cell_tick_witness :
    List.head? [((0, 0, 0) : Pos), (1, 0, 1), (2, 0, 2)] = some (1, 0, 1) ∨
    List.head? [((1, 0, 1) : Pos)] = some (1, 0, 1) :=
  prioritized_no_shared_cell_tick rsW5 [dropA, dropB] 12 (by decide)
    1 2 [(0, 0, 0), (1, 0, 1), (2, 0, 2)] [(1, 0, 1)]
    (by decide) (by decide) (by decide) (1, 0, 1) (by decide) (by decide)

/-! ## Cycle detection: association-list and filter groundwork -/

theorem alookup_aset_self {α β : Type} [DecidableEq α] :
    ∀ (l : List (α × β)) (k : α) (v : β), alookup (aset l k v) k = some v := by
  intro l
  induction l with
  | nil => intro k v; simp [aset, alookup]
  | cons kv rest ih =>
      intro k v
      obtain ⟨k', w⟩ := kv
      by_cases hk : k = k'
      · subst hk; simp [aset, alookup]
      · simp [aset, alookup, hk, ih]

theorem alookup_aset_ne {α β : Type} [DecidableEq α] :
    ∀ (l : List (α × β)) (k : α) (v : β) (j : α), j ≠ k →
      alookup (aset l k v) j = alookup l j := by
  intro l
  induction l with
  | nil => intro k v j hj; simp [aset, alookup, hj]
  | cons kv rest ih =>
      intro k v j hj
      obtain ⟨k', w⟩ := kv
      by_cases hk : k = k'
      · subst hk; simp [aset, alookup, hj]
      · by_cases hjk : j = k'
        · simp [aset, alookup, hk, hjk]
        · simp [aset, alookup, hk, hjk, ih _ _ _ hj]

theorem aset_keys {α β : Type} [DecidableEq α] :
    ∀ (l : List (α × β)) (k : α) (v : β),
      (aset l k v).map Prod.fst =
        if k ∈ l.map Prod.fst then l.map Prod.fst
        else l.map Prod.fst ++ [k] := by
  intro l
  induction l with
  | nil => intro k v; simp [aset]
  | cons kv rest ih =>
      intro k v
      obtain ⟨k', w⟩ := kv
      by_cases hk : k = k'
      · subst hk; simp [aset]
      · have hstep : aset ((k', w) :: rest) k v = (k', w) :: aset rest k v := by
          simp [aset, hk]
        rw [hstep]
        simp only [List.map_cons, ih]
        by_cases hmem : k ∈ rest.map Prod.fst
        · rw [if_pos hmem, if_pos (by simp [hmem])]
        · rw [if_neg hmem, if_neg (by simp [hk, hmem])]
          simp

theorem aset_keys_nodup {α β : Type} [DecidableEq α] (l : List (α × β)) (k : α)
    (v : β) (h : (l.map Prod.fst).Nodup) : ((aset l k v).map Prod.fst).Nodup := by
  rw [aset_keys]
  by_cases hmem : k ∈ l.map Prod.fst
  · rw [if_pos hmem]; exact h
  · rw [if_neg hmem]
    rw [List.nodup_append]
    refine ⟨h, List.nodup_singleton _, ?_⟩
    intro a ha hak
    simp at hak
    exact hmem (hak ▸ ha)

theorem alookup_isSome_key {α β : Type} [DecidableEq α] :
    ∀ (l : List (α × β)) (k : α),
      (alookup l k).isSome = true ↔ k ∈ l.map Prod.fst := by
  intro l
  induction l with
  | nil => intro k; simp [alookup]
  | cons kv rest ih =>
      intro k
      obtain ⟨k', w⟩ := kv
      by_cases hk : k = k'
      · subst hk; simp [alookup]
      · simp [alookup, hk, ih]

theorem alookup_of_mem_nodupkeys {α β : Type} [DecidableEq α] :
    ∀ (l : List (α × β)), (l.map Prod.fst).Nodup → ∀ (k : α) (v : β),
      (k, v) ∈ l → alookup l k = some v := by
  intro l
  induction l with
  | nil => intro _ k v h; simp at h
  | cons kv rest ih =>
      intro hnd k v hmem
      obtain ⟨k', w⟩ := kv
      simp only [List.map_cons, List.nodup_cons] at hnd
      rcases List.mem_cons.mp hmem with heq | hrest
      · cases heq
        simp [alookup]
      · have hk : k ≠ k' := by
          intro h
          subst h
          exact hnd.1 (List.mem_map_of_mem Prod.fst hrest)
        simp [alookup, hk, ih hnd.2 _ _ hrest]

theorem filter_notmem_append (deps acc : List Int) (q : Int) :
    deps.filter (fun d => decide (d ∉ acc ++ [q])) =
      (deps.filter (fun d => decide (d ∉ acc))).filter
        (fun d => decide (d ≠ q)) := by
  rw [List.filter_filter]
  apply List.filter_congr
  intro x hx
  by_cases h1 : x ∈ acc <;> by_cases h2 : x = q <;> simp [h1, h2]

theorem length_filter_ne_lt (q : Int) :
    ∀ (L : List Int), q ∈ L →
      (L.filter (fun d => decide (d ≠ q))).length < L.length := by
  intro L
  induction L with
  | nil => intro h; simp at h
  | cons x L' ih =>
      intro hq
      by_cases hx : x = q
      · subst hx
        have : (x :: L').filter (fun d => decide (d ≠ x)) =
            L'.filter (fun d => decide (d ≠ x)) := by simp
        rw [this]
        calc (L'.filter (fun d => decide (d ≠ x))).length
            ≤ L'.length := (List.filter_sublist _).length_le
          _ < (x :: L').length := by simp
      · have hq' : q ∈ L' := by
          rcases List.mem_cons.mp hq with h | h
          · exact absurd h.symm hx
          · exact h
        have : (x :: L').filter (fun d => decide (d ≠ q)) =
            x :: L'.filter (fun d => decide (d ≠ q)) := by simp [hx]
        rw [this]
        simpa using Nat.succ_lt_succ (ih hq')

theorem filter_drop_q (deps acc : List Int) (q : Int) (hq : q ∉ acc)
    (hqd : q ∈ deps) :
    (deps.filter (fun d => decide (d ∉ acc ++ [q]))).length + 1 ≤
      (deps.filter (fun d => decide (d ∉ acc))).length := by
  rw [filter_notmem_append]
  have hqF : q ∈ deps.filter (fun d => decide (d ∉ acc)) :=
    List.mem_filter.mpr ⟨hqd, by simpa using hq⟩
  exact Nat.succ_le_of_lt (length_filter_ne_lt q _ hqF)

theorem filter_drop_q_le (deps acc : List Int) (q : Int) :
    (deps.filter (fun d => decide (d ∉ acc ++ [q]))).length ≤
      (deps.filter (fun d => decide (d ∉ acc))).length := by
  rw [filter_notmem_append]
  exact (List.filter_sublist _).length_le

theorem kahnSeed_lookup :
    ∀ (ops : List Operation) (m : List (Int × Int)) (i : Int),
      alookup (ops.foldl (fun m op => aset m op.id (0 : Int)) m) i =
        if i ∈ ops.map Operation.id then some 0 else alookup m i := by
  intro ops
  induction ops with
  | nil => intro m i; simp
  | cons op0 rest ih =>
      intro m i
      rw [List.foldl_cons, ih]
      by_cases hmem : i ∈ rest.map Operation.id
      · rw [if_pos hmem, if_pos (by simp [hmem])]
      · rw [if_neg hmem]
        by_cases hi : i = op0.id
        · subst hi
          rw [alookup_aset_self, if_pos (by simp)]
        · rw [alookup_aset_ne _ _ _ _ hi, if_neg (by simp [hi, hmem])]

theorem kahnSeed_keys :
    ∀ (ops : List Operation) (m : List (Int × Int)) (x : Int),
      x ∈ (ops.foldl (fun m op => aset m op.id (0 : Int)) m).map Prod.fst →
        x ∈ ops.map Operation.id ∨ x ∈ m.map Prod.fst := by
  intro ops
  induction ops with
  | nil => intro m x h; right; exact h
  | cons op0 rest ih =>
      intro m x h
      rw [List.foldl_cons] at h
      rcases ih _ _ h with h1 | h2
      · left; simp [h1]
      · rw [aset_keys] at h2
        by_cases hm : op0.id ∈ m.map Prod.fst
        · rw [if_pos hm] at h2; right; exact h2
        · rw [if_neg hm] at h2
          rcases List.mem_append.mp h2 with h3 | h3
          · right; exact h3
          · left
            simp at h3
            simp [h3]

theorem kahnSeed_keys_nodup :
    ∀ (ops : List Operation) (m : List (Int × Int)),
      (m.map Prod.fst).Nodup →
      ((ops.foldl (fun m op => aset m op.id (0 : Int)) m).map Prod.fst).Nodup := by
  intro ops
  induction ops with
  | nil => intro m h; exact h
  | cons op0 rest ih =>
      intro m h
      rw [List.foldl_cons]
      exact ih _ (aset_keys_nodup _ _ _ h)

theorem bump_lookup_self :
    ∀ (deps : List Int) (i : Int) (m : List (Int × Int)) (v : Int),
      alookup m i = some v →
      alookup (deps.foldl (fun (m' : List (Int × Int)) _d =>
        match alookup m' i with
        | some w => aset m' i (w + 1)
        | none => m') m) i = some (v + deps.length) := by
  intro deps
  induction deps with
  | nil => intro i m v h; simpa using h
  | cons d rest ih =>
      intro i m v h
      rw [List.foldl_cons]
      have hstep : (match alookup m i with
          | some w => aset m i (w + 1)
          | none => m) = aset m i (v + 1) := by rw [h]
      rw [hstep, ih i _ (v + 1) (alookup_aset_self _ _ _)]
      congr 1
      simp only [List.length_cons]
      push_cast
      ring

theorem bump_lookup_other :
    ∀ (deps : List Int) (i : Int) (m : List (Int × Int)) (j : Int), j ≠ i →
      alookup (deps.foldl (fun (m' : List (Int × Int)) _d =>
        match alookup m' i with
        | some w => aset m' i (w + 1)
        | none => m') m) j = alookup m j := by
  intro deps
  induction deps with
  | nil => intro i m j hj; rfl
  | cons d rest ih =>
      intro i m j hj
      rw [List.foldl_cons, ih _ _ _ hj]
      cases h : alookup m i with
      | none => rfl
      | some w => exact alookup_aset_ne _ _ _ _ hj

theorem bump_keys :
    ∀ (deps : List Int) (i : Int) (m : List (Int × Int)),
      (deps.foldl (fun (m' : List (Int × Int)) _d =>
        match alookup m' i with
        | some w => aset m' i (w + 1)
        | none => m') m).map Prod.fst = m.map Prod.fst := by
  intro deps
  induction deps with
  | nil => intro i m; rfl
  | cons d rest ih =>
      intro i m
      rw [List.foldl_cons, ih]
      cases h : alookup m i with
      | none => rfl
      | some w =>
          show (aset m i (w + 1)).map Prod.fst = m.map Prod.fst
          rw [aset_keys, if_pos]
          exact (alookup_isSome_key m i).mp (by rw [h]; rfl)

theorem kahnInc_other :
    ∀ (l : List Operation) (m : List (Int × Int)) (i : Int),
      (∀ op ∈ l, op.id ≠ i) →
      alookup (l.foldl (fun m op =>
        op.dependencies.foldl (fun (m' : List (Int × Int)) _d =>
          match alookup m' op.id with
          | some v => aset m' op.id (v + 1)
          | none => m') m) m) i = alookup m i := by
  intro l
  induction l with
  | nil => intro m i _; rfl
  | cons op0 rest ih =>
      intro m i h
      rw [List.foldl_cons, ih _ _ (fun op hop => h op (List.mem_cons_of_mem _ hop))]
      exact bump_lookup_other _ _ _ _ (fun he => h op0 (List.mem_cons_self _ _) he.symm)

theorem kahnInc_keys :
    ∀ (l : List Operation) (m : List (Int × Int)),
      (l.foldl (fun m op =>
        op.dependencies.foldl (fun (m' : List (Int × Int)) _d =>
          match alookup m' op.id with
          | some v => aset m' op.id (v + 1)
          | none => m') m) m).map Prod.fst = m.map Prod.fst := by
  intro l
  induction l with
  | nil => intro m; rfl
  | cons op0 rest ih =>
      intro m
      rw [List.foldl_cons, ih, bump_keys]

theorem kahnInc_lookup :
    ∀ (l : List Operation), (l.map Operation.id).Nodup →
      ∀ (m : List (Int × Int)) (op : Operation), op ∈ l → ∀ (v : Int),
        alookup m op.id = some v →
        alookup (l.foldl (fun m op' =>
          op'.dependencies.foldl (fun (m' : List (Int × Int)) _d =>
            match alookup m' op'.id with
            | some w => aset m' op'.id (w + 1)
            | none => m') m) m) op.id = some (v + op.dependencies.length) := by
  intro l
  induction l with
  | nil => intro _ m op h; simp at h
  | cons op0 rest ih =>
      intro hnd m op hop v hv
      rw [List.foldl_cons]
      simp only [List.map_cons, List.nodup_cons] at hnd
      rcases List.mem_cons.mp hop with heq | hrest
      · subst heq
        rw [kahnInc_other rest _ _
          (fun op' h' he => hnd.1 (by
            rw [← he]
            exact List.mem_map_of_mem Operation.id h'))]
        exact bump_lookup_self _ _ _ _ hv
      · have hne : op.id ≠ op0.id :=
          fun he => hnd.1 (by
            rw [← he]
            exact List.mem_map_of_mem Operation.id hrest)
        exact ih hnd.2 _ op hrest v
          (by rw [bump_lookup_other _ _ _ _ hne]; exact hv)

theorem kahnInit_lookup (ops : List Operation)
    (hnd : (ops.map Operation.id).Nodup) (op : Operation) (hop : op ∈ ops) :
    alookup (kahnInit ops) op.id = some ((op.dependencies.length : Int)) := by
  have hdef : kahnInit ops = ops.foldl (fun m op' =>
      op'.dependencies.foldl (fun (m' : List (Int × Int)) _d =>
        match alookup m' op'.id with
        | some w => aset m' op'.id (w + 1)
        | none => m') m)
      (ops.foldl (fun m op' => aset m op'.id (0 : Int)) []) := rfl
  have h0 : alookup (ops.foldl (fun m op' => aset m op'.id (0 : Int)) []) op.id
      = some 0 := by
    rw [kahnSeed_lookup, if_pos (List.mem_map_of_mem _ hop)]
  rw [hdef, kahnInc_lookup ops hnd _ op hop 0 h0, zero_add]

theorem kahnInit_keys_nodup (ops : List Operation) :
    ((kahnInit ops).map Prod.fst).Nodup := by
  have hdef : kahnInit ops = ops.foldl (fun m op' =>
      op'.dependencies.foldl (fun (m' : List (Int × Int)) _d =>
        match alookup m' op'.id with
        | some w => aset m' op'.id (w + 1)
        | none => m') m)
      (ops.foldl (fun m op' => aset m op'.id (0 : Int)) []) := rfl
  rw [hdef, kahnInc_keys]
  exact kahnSeed_keys_nodup ops [] (by simp)

theorem kahnInit_keys_sub (ops : List Operation) (x : Int)
    (h : x ∈ (kahnInit ops).map Prod.fst) : x ∈ ops.map Operation.id := by
  have hdef : kahnInit ops = ops.foldl (fun m op' =>
      op'.dependencies.foldl (fun (m' : List (Int × Int)) _d =>
        match alookup m' op'.id with
        | some w => aset m' op'.id (w + 1)
        | none => m') m)
      (ops.foldl (fun m op' => aset m op'.id (0 : Int)) []) := rfl
  rw [hdef, kahnInc_keys] at h
  rcases kahnSeed_keys ops [] x h with h1 | h2
  · exact h1
  · simp at h2

theorem chain_mem_succ {R : Int → Int → Prop} :
    ∀ (l : List Int) (a z : Int), List.Chain R a l →
      (a :: l).getLast? = some z →
      ∀ x ∈ a :: l, (∃ y ∈ a :: l, R x y) ∨ x = z := by
  intro l
  induction l with
  | nil =>
      intro a z _ hlast x hx
      right
      simp at hlast hx
      rw [hx, hlast]
  | cons b l' ih =>
      intro a z hch hlast x hx
      rw [List.chain_cons] at hch
      obtain ⟨hab, hch'⟩ := hch
      rcases List.mem_cons.mp hx with heq | hx'
      · subst heq
        left
        exact ⟨b, by simp, hab⟩
      · rw [List.getLast?_cons_cons] at hlast
        rcases ih b z hch' hlast x hx' with ⟨y, hy, hR⟩ | hz
        · left
          exact ⟨y, List.mem_cons_of_mem _ hy, hR⟩
        · right
          exact hz

theorem hasCycle_closedSet (p : DMFBProblem) (h : hasCycle p) :
    ∃ S : List Int, S ≠ [] ∧ ∀ x ∈ S, ∃ op ∈ p.operations, op.id = x ∧
      ∃ y ∈ op.dependencies, y ∈ S := by
  obtain ⟨a, c, hchain⟩ := h
  refine ⟨a :: (c ++ [a]), by simp, ?_⟩
  intro x hx
  have hlast : (a :: (c ++ [a])).getLast? = some a := by
    rw [show a :: (c ++ [a]) = (a :: c) ++ [a] from rfl, List.getLast?_concat]
  have hhead : ∃ op ∈ p.operations, op.id = a ∧
      ∃ y ∈ op.dependencies, y ∈ a :: (c ++ [a]) := by
    cases hc : c ++ [a] with
    | nil => simp at hc
    | cons b rest =>
        rw [hc, List.chain_cons] at hchain
        obtain ⟨op, hop, hid, hdep⟩ := hchain.1
        exact ⟨op, hop, hid, b, hdep,
          List.mem_cons_of_mem _ (List.mem_cons_self _ _)⟩
  rcases chain_mem_succ (c ++ [a]) a a hchain hlast x hx with ⟨y, hy, hR⟩ | heq
  · obtain ⟨op, hop, hid, hdep⟩ := hR
    exact ⟨op, hop, hid, y, hdep, hy⟩
  · subst heq
    exact hhead

theorem kahnFold_inv (ops : List Operation) (S : List Int) (q : Int)
    (hnd : (ops.map Operation.id).Nodup)
    (hS : ∀ x ∈ S, ∃ op ∈ ops, op.id = x ∧ ∃ y ∈ op.dependencies, y ∈ S)
    (acc2 : List Int) (hSacc : ∀ a ∈ S, a ∉ acc2) :
    ∀ (l : List Operation), (∀ op ∈ l, op ∈ ops) →
      (l.map Operation.id).Nodup →
      ∀ (deg : List (Int × Int)) (queue : List Int),
        KInv ops S q acc2 l deg queue →
        KInv ops S q acc2 []
          (l.foldl (kahnStep q) (deg, queue)).1
          (l.foldl (kahnStep q) (deg, queue)).2 := by
  intro l
  induction l with
  | nil =>
      intro _ _ deg queue hinv
      exact hinv
  | cons op0 l' ih =>
      intro hsub hndl deg queue hinv
      simp only [List.map_cons, List.nodup_cons] at hndl
      have hop0ops : op0 ∈ ops := hsub op0 (List.mem_cons_self _ _)
      have hsub' : ∀ op ∈ l', op ∈ ops :=
        fun op h => hsub op (List.mem_cons_of_mem _ h)
      have hpmono : ∀ (op : Operation),
          (if q ∈ op.dependencies ∧ op.id ∈ l'.map Operation.id
            then (1 : Int) else 0) ≤
          (if q ∈ op.dependencies ∧ op.id ∈ (op0 :: l').map Operation.id
            then (1 : Int) else 0) := by
        intro op
        by_cases hc : q ∈ op.dependencies ∧ op.id ∈ l'.map Operation.id
        · rw [if_pos hc, if_pos ⟨hc.1, by simp [hc.2]⟩]
        · rw [if_neg hc]
          split <;> norm_num
      have hkeep : ∀ (deg' : List (Int × Int)) (queue' : List Int),
          KInv ops S q acc2 (op0 :: l') deg' queue' →
          KInv ops S q acc2 l' deg' queue' := by
        intro deg' queue' hk
        unfold KInv at hk ⊢
        obtain ⟨K2, K4, K5, K6, K9, K3⟩ := hk
        refine ⟨K2, K4, K5, K6, K9, ?_⟩
        intro a ha op hop hid
        obtain ⟨n, hn, hb⟩ := K3 a ha op hop hid
        exact ⟨n, hn, le_trans (add_le_add_left (hpmono op) _) hb⟩
      unfold KInv at hinv
      obtain ⟨J2, J4, J5, J6, J9, J3⟩ := hinv
      rw [List.foldl_cons]
      by_cases hcont : op0.dependencies.contains q = true
      · have hq_mem : q ∈ op0.dependencies := by simpa using hcont
        cases hlk : alookup deg op0.id with
        | none =>
            have hstep : kahnStep q (deg, queue) op0 = (deg, queue) := by
              simp [kahnStep, hcont, hlk]
            rw [hstep]
            exact ih hsub' hndl.2 _ _
              (hkeep _ _ ⟨J2, J4, J5, J6, J9, J3⟩)
        | some v =>
            by_cases hv0 : v - 1 = 0
            · have hstep : kahnStep q (deg, queue) op0 =
                  (aset deg op0.id (v - 1), queue ++ [op0.id]) := by
                simp [kahnStep, hq_mem, hlk, hv0]
              have hop0S : op0.id ∉ S := by
                intro haS
                obtain ⟨n, hn, hb⟩ := J3 op0.id haS op0 hop0ops rfl
                rw [hlk] at hn
                injection hn with hn'
                have hcnd : q ∈ op0.dependencies ∧
                    op0.id ∈ (op0 :: l').map Operation.id := ⟨hq_mem, by simp⟩
                rw [if_pos hcnd] at hb
                obtain ⟨op', hop', hid', y, hy, hyS⟩ := hS op0.id haS
                have hopeq : op' = op0 :=
                  List.inj_on_of_nodup_map hnd hop' hop0ops (by rw [hid'])
                rw [hopeq] at hy
                have hyF : y ∈ List.filter (fun d => decide (d ∉ acc2))
                    op0.dependencies :=
                  List.mem_filter.mpr ⟨hy, by simpa using hSacc y hyS⟩
                have hlen : 1 ≤ (List.filter (fun d => decide (d ∉ acc2))
                    op0.dependencies).length :=
                  List.length_pos.mpr (List.ne_nil_of_mem hyF)
                omega
              have hnontriv : op0.id ∈ queue ∨ op0.id ∈ acc2 → False := by
                intro hmem
                obtain ⟨n, hn, hle⟩ := J6 op0.id hmem
                rw [hlk] at hn
                injection hn with hn'
                omega
              rw [hstep]
              apply ih hsub' hndl.2
              unfold KInv
              refine ⟨?_, ?_, ?_, ?_, ?_, ?_⟩
              · intro a ha hmem
                rcases List.mem_append.mp hmem with h1 | h1
                · exact J2 a ha h1
                · simp at h1
                  exact hop0S (h1 ▸ ha)
              · rw [List.nodup_append]
                refine ⟨J4, List.nodup_singleton _, ?_⟩
                intro x hx hx1
                simp at hx1
                exact hnontriv (Or.inl (hx1 ▸ hx))
              · intro x hx
                rcases List.mem_append.mp hx with h1 | h1
                · exact J5 x h1
                · simp at h1
                  subst h1
                  exact fun h => hnontriv (Or.inr h)
              · intro x hx
                by_cases hxe : x = op0.id
                · subst hxe
                  exact ⟨v - 1, alookup_aset_self _ _ _, by omega⟩
                · have hx' : x ∈ queue ∨ x ∈ acc2 := by
                    rcases hx with h1 | h1
                    · rcases List.mem_append.mp h1 with h2 | h2
                      · exact Or.inl h2
                      · simp at h2
                        exact absurd h2 hxe
                    · exact Or.inr h1
                  obtain ⟨n, hn, hle⟩ := J6 x hx'
                  exact ⟨n, by rw [alookup_aset_ne _ _ _ _ hxe]; exact hn, hle⟩
              · intro x hx
                rcases List.mem_append.mp hx with h1 | h1
                · exact J9 x h1
                · simp at h1
                  subst h1
                  exact List.mem_map_of_mem _ hop0ops
              · intro a ha op hop hid
                obtain ⟨n, hn, hb⟩ := J3 a ha op hop hid
                have hane : a ≠ op0.id := fun he => hop0S (he ▸ ha)
                refine ⟨n, by rw [alookup_aset_ne _ _ _ _ hane]; exact hn, ?_⟩
                exact le_trans (add_le_add_left (hpmono op) _) hb
            · have hstep : kahnStep q (deg, queue) op0 =
                  (aset deg op0.id (v - 1), queue) := by
                simp [kahnStep, hq_mem, hlk, hv0]
              rw [hstep]
              apply ih hsub' hndl.2
              unfold KInv
              refine ⟨J2, J4, J5, ?_, J9, ?_⟩
              · intro x hx
                obtain ⟨n, hn, hle⟩ := J6 x hx
                by_cases hxe : x = op0.id
                · subst hxe
                  rw [hlk] at hn
                  injection hn with hn'
                  exact ⟨v - 1, alookup_aset_self _ _ _, by omega⟩
                · exact ⟨n, by rw [alookup_aset_ne _ _ _ _ hxe]; exact hn, hle⟩
              · intro a ha op hop hid
                obtain ⟨n, hn, hb⟩ := J3 a ha op hop hid
                by_cases hae : a = op0.id
                · subst hae
                  have hopeq : op = op0 :=
                    List.inj_on_of_nodup_map hnd hop hop0ops hid
                  rw [hlk] at hn
                  injection hn with hn'
                  have hcnd : q ∈ op.dependencies ∧
                      op.id ∈ (op0 :: l').map Operation.id := by
                    constructor
                    · rw [hopeq]
                      exact hq_mem
                    · rw [hid]
                      simp
                  rw [if_pos hcnd] at hb
                  refine ⟨v - 1, alookup_aset_self _ _ _, ?_⟩
                  rw [if_neg (fun hc2 => hndl.1 (hid ▸ hc2.2))]
                  omega
                · exact ⟨n, by rw [alookup_aset_ne _ _ _ _ hae]; exact hn,
                    le_trans (add_le_add_left (hpmono op) _) hb⟩
      · have hq_nmem : q ∉ op0.dependencies := by simpa using hcont
        have hstep : kahnStep q (deg, queue) op0 = (deg, queue) := by
          simp [kahnStep, hq_nmem]
        rw [hstep]
        exact ih hsub' hndl.2 _ _ (hkeep _ _ ⟨J2, J4, J5, J6, J9, J3⟩)

theorem kahnLoop_S (ops : List Operation) (S : List Int)
    (hnd : (ops.map Operation.id).Nodup)
    (hS : ∀ x ∈ S, ∃ op ∈ ops, op.id = x ∧ ∃ y ∈ op.dependencies, y ∈ S) :
    ∀ (fuel : Nat) (queue : List Int) (deg : List (Int × Int)) (acc : List Int),
      KLoopInv ops S deg queue acc →
      ∀ res, kahnLoop ops queue deg acc fuel = some res →
        (∀ a ∈ S, a ∉ res) ∧ res.Nodup ∧
          ∀ x ∈ res, x ∈ ops.map Operation.id := by
  intro fuel
  induction fuel with
  | zero =>
      intro queue deg acc hinv res hres
      cases queue with
      | nil =>
          have hacc : some acc = some res := hres
          injection hacc with h
          subst h
          unfold KLoopInv at hinv
          obtain ⟨I1, _, _, I4a, _, _, _, I8, _⟩ := hinv
          exact ⟨I1, I4a, I8⟩
      | cons q qs => exact Option.noConfusion hres
  | succ f ihf =>
      intro queue deg acc hinv res hres
      cases queue with
      | nil =>
          have hacc : some acc = some res := hres
          injection hacc with h
          subst h
          unfold KLoopInv at hinv
          obtain ⟨I1, _, _, I4a, _, _, _, I8, _⟩ := hinv
          exact ⟨I1, I4a, I8⟩
      | cons q qs =>
          unfold KLoopInv at hinv
          obtain ⟨I1, I2, I4q, I4a, I5, I6, I9, I8, I3⟩ := hinv
          have hqQ : q ∈ q :: qs := List.mem_cons_self _ _
          have hqS : q ∉ S := fun h => I2 q h hqQ
          have hqacc : q ∉ acc := I5 q hqQ
          have hq_ids : q ∈ ops.map Operation.id := I9 q hqQ
          simp only [List.nodup_cons] at I4q
          have hSacc2 : ∀ a ∈ S, a ∉ acc ++ [q] := by
            intro a ha hmem
            rcases List.mem_append.mp hmem with h1 | h1
            · exact I1 a ha h1
            · simp at h1
              exact hqS (h1 ▸ ha)
          have hKI : KInv ops S q (acc ++ [q]) ops deg qs := by
            unfold KInv
            refine ⟨?_, I4q.2, ?_, ?_, ?_, ?_⟩
            · intro a ha h
              exact I2 a ha (List.mem_cons_of_mem _ h)
            · intro x hx hmem
              rcases List.mem_append.mp hmem with h1 | h1
              · exact I5 x (List.mem_cons_of_mem _ hx) h1
              · simp at h1
                exact I4q.1 (h1 ▸ hx)
            · intro x hx
              apply I6
              rcases hx with h1 | h1
              · exact Or.inl (List.mem_cons_of_mem _ h1)
              · rcases List.mem_append.mp h1 with h2 | h2
                · exact Or.inr h2
                · simp at h2
                  subst h2
                  exact Or.inl hqQ
            · intro x hx
              exact I9 x (List.mem_cons_of_mem _ hx)
            · intro a ha op hop hid
              obtain ⟨n, hn, hb⟩ := I3 a ha op hop hid
              refine ⟨n, hn, ?_⟩
              by_cases hqd : q ∈ op.dependencies
              · rw [if_pos ⟨hqd, List.mem_map_of_mem Operation.id hop⟩]
                have hdrop := filter_drop_q op.dependencies acc q hqacc hqd
                omega
              · rw [if_neg (fun hc => hqd hc.1)]
                have hdrop := filter_drop_q_le op.dependencies acc q
                omega
          have hfold := kahnFold_inv ops S q hnd hS (acc ++ [q]) hSacc2 ops
            (fun op h => h) hnd deg qs hKI
          unfold KInv at hfold
          obtain ⟨F2, F4, F5, F6, F9, F3⟩ := hfold
          have hres' : kahnLoop ops
              ((ops.foldl (kahnStep q) (deg, qs)).2)
              ((ops.foldl (kahnStep q) (deg, qs)).1)
              (acc ++ [q]) f = some res := hres
          apply ihf _ _ _ ?_ res hres'
          unfold KLoopInv
          refine ⟨hSacc2, F2, F4, ?_, F5, F6, F9, ?_, ?_⟩
          · rw [List.nodup_append]
            refine ⟨I4a, List.nodup_singleton _, ?_⟩
            intro x hx hx1
            simp at hx1
            exact hqacc (hx1 ▸ hx)
          · intro x hx
            rcases List.mem_append.mp hx with h1 | h1
            · exact I8 x h1
            · simp at h1
              subst h1
              exact hq_ids
          · intro a ha op hop hid
            obtain ⟨n, hn, hb⟩ := F3 a ha op hop hid
            refine ⟨n, hn, ?_⟩
            rw [if_neg (by simp)] at hb
            omega

theorem topologicalSort_cycle_error (p : DMFBProblem)
    (hnd : (p.operations.map Operation.id).Nodup) (hcyc : hasCycle p) :
    ∃ e, topologicalSort p = .error e := by
  obtain ⟨S, hSne, hS⟩ := hasCycle_closedSet p hcyc
  obtain ⟨a0, S', hSval⟩ : ∃ a0 S', S = a0 :: S' := by
    cases S with
    | nil => exact absurd rfl hSne
    | cons a s => exact ⟨a, s, rfl⟩
  have ha0S : a0 ∈ S := by
    rw [hSval]
    exact List.mem_cons_self _ _
  obtain ⟨opa, hopa, hida, _⟩ := hS a0 ha0S
  have ha0ids : a0 ∈ p.operations.map Operation.id := by
    rw [← hida]
    exact List.mem_map_of_mem _ hopa
  have hq0 : ∀ x ∈ ((kahnInit p.operations).filter
      (fun kv => kv.2 = 0)).map Prod.fst,
      alookup (kahnInit p.operations) x = some 0 := by
    intro x hx
    obtain ⟨kv, hkv, hfst⟩ := List.mem_map.mp hx
    obtain ⟨hmem, hz⟩ := List.mem_filter.mp hkv
    obtain ⟨k1, k2⟩ := kv
    have hz' : k2 = 0 := by simpa using hz
    have hx' : k1 = x := hfst
    subst hz'
    subst hx'
    exact alookup_of_mem_nodupkeys _ (kahnInit_keys_nodup _) _ _ hmem
  have hqsub : ∀ x ∈ ((kahnInit p.operations).filter
      (fun kv => kv.2 = 0)).map Prod.fst,
      x ∈ p.operations.map Operation.id := by
    intro x hx
    obtain ⟨kv, hkv, hfst⟩ := List.mem_map.mp hx
    apply kahnInit_keys_sub
    rw [← hfst]
    exact List.mem_map_of_mem _ (List.mem_filter.mp hkv).1
  have hqS : ∀ a ∈ S, a ∉ ((kahnInit p.operations).filter
      (fun kv => kv.2 = 0)).map Prod.fst := by
    intro a ha hmem
    obtain ⟨op, hop, hid, y, hy, hyS⟩ := hS a ha
    have h1 := hq0 a hmem
    have h2 := kahnInit_lookup p.operations hnd op hop
    rw [hid, h1] at h2
    injection h2 with h2'
    have hpos : 1 ≤ op.dependencies.length :=
      List.length_pos.mpr (List.ne_nil_of_mem hy)
    omega
  have hqnd : (((kahnInit p.operations).filter
      (fun kv => kv.2 = 0)).map Prod.fst).Nodup :=
    List.Nodup.sublist ((List.filter_sublist _).map Prod.fst)
      (kahnInit_keys_nodup _)
  have hinv : KLoopInv p.operations S (kahnInit p.operations)
      (((kahnInit p.operations).filter (fun kv => kv.2 = 0)).map Prod.fst)
      [] := by
    unfold KLoopInv
    refine ⟨fun a _ h => List.not_mem_nil a h, hqS, hqnd, List.nodup_nil,
      fun x _ h => List.not_mem_nil x h, ?_, hqsub,
      fun x h => absurd h (List.not_mem_nil x), ?_⟩
    · intro x hx
      rcases hx with h1 | h1
      · exact ⟨0, hq0 x h1, le_refl 0⟩
      · exact absurd h1 (List.not_mem_nil x)
    · intro a ha op hop hid
      have h2 := kahnInit_lookup p.operations hnd op hop
      rw [hid] at h2
      refine ⟨op.dependencies.length, h2, ?_⟩
      have hfe : op.dependencies.filter
          (fun d => decide (d ∉ ([] : List Int))) = op.dependencies := by
        simp
      rw [hfe]
  cases hk : kahnLoop p.operations
      (((kahnInit p.operations).filter (fun kv => kv.2 = 0)).map Prod.fst)
      (kahnInit p.operations) [] (p.operations.length + 1) with
  | none =>
      refine ⟨"fuel exhausted", ?_⟩
      show (match kahnLoop p.operations
          (((kahnInit p.operations).filter (fun kv => kv.2 = 0)).map Prod.fst)
          (kahnInit p.operations) [] (p.operations.length + 1) with
        | none => Except.error "fuel exhausted"
        | some res => if res.length = p.operations.length then Except.ok res
            else Except.error "Dependency graph contains cycles") =
        Except.error "fuel exhausted"
      rw [hk]
  | some res =>
      obtain ⟨hnotin, hndres, hsubres⟩ :=
        kahnLoop_S p.operations S hnd hS _ _ _ _ hinv res hk
      have ha0res : a0 ∉ res := hnotin a0 ha0S
      have hsub' : ∀ x ∈ res, x ∈ (p.operations.map Operation.id).erase a0 := by
        intro x hx
        have hne : x ≠ a0 := fun he => ha0res (he ▸ hx)
        exact (List.mem_erase_of_ne hne).mpr (hsubres x hx)
      have h1 : res.toFinset.card = res.length :=
        List.toFinset_card_of_nodup hndres
      have h2 : res.toFinset ⊆
          ((p.operations.map Operation.id).erase a0).toFinset := by
        intro x hx
        rw [List.mem_toFinset] at hx ⊢
        exact hsub' x hx
      have h3 := Finset.card_le_card h2
      have h4 := List.toFinset_card_le ((p.operations.map Operation.id).erase a0)
      have h5 : ((p.operations.map Operation.id).erase a0).length =
          (p.operations.map Operation.id).length - 1 :=
        List.length_erase_of_mem ha0ids
      have h6 : (p.operations.map Operation.id).length = p.operations.length :=
        List.length_map _ _
      have h7 : 1 ≤ (p.operations.map Operation.id).length :=
        List.length_pos.mpr (List.ne_nil_of_mem ha0ids)
      refine ⟨"Dependency graph contains cycles", ?_⟩
      show (match kahnLoop p.operations
          (((kahnInit p.operations).filter (fun kv => kv.2 = 0)).map Prod.fst)
          (kahnInit p.operations) [] (p.operations.length + 1) with
        | none => Except.error "fuel exhausted"
        | some res => if res.length = p.operations.length then Except.ok res
            else Except.error "Dependency graph contains cycles") =
        Except.error "Dependency graph contains cycles"
      rw [hk]
      show (if res.length = p.operations.length then Except.ok res
          else Except.error "Dependency graph contains cycles") =
        Except.error "Dependency graph contains cycles"
      rw [if_neg (by omega)]

/-- C8: for every problem instance (with duplicate-free operation ids) whose
dependency graph contains a cycle, the topological sort cannot cover all
operations and raises a structural error; the error propagates to the
critical-path computation, and the scheduler surfaces it at construction
(`ListScheduler.__init__` precomputes ASAP), so the scheduling main loop
never runs. -/
theorem cycle_structural_error (p : DMFBProblem) (mi : List (String × Nat))
    (hnd : (p.operations.map Operation.id).Nodup) (hcyc : hasCycle p) :
    (∃ e, topologicalSort p = .error e) ∧
    (∃ e, criticalPathLength p = .error e) ∧
    (∃ e, mkScheduler p mi = .error e) := by
  obtain ⟨e, he⟩ := topologicalSort_cycle_error p hnd hcyc
  have hcp : criticalPathLength p = .error e := by
    unfold criticalPathLength
    rw [he]
    rfl
  have hca : computeAsap p = .error e := by
    unfold computeAsap
    rw [he]
    rfl
  have hmk : mkScheduler p mi = .error e := by
    unfold mkScheduler
    rw [hca]
    rfl
  exact ⟨⟨e, he⟩, ⟨e, hcp⟩, ⟨e, hmk⟩⟩

/-- On the two-operation cyclic instance the structural error shows up in the
topological sort, the critical-path computation and the scheduler
constructor. -/
theorem cycle_structural_error_witness :
    (∃ e, topologicalSort c8Problem = .error e) ∧
    (∃ e, criticalPathLength c8Problem = .error e) ∧
    (∃ e, mkScheduler c8Problem [] = .error e) :=
  cycle_structural_error c8Problem [] (by decide)
    ⟨1, [2], List.Chain.cons ⟨c8Op1, by decide, rfl, by decide⟩
      (List.Chain.cons ⟨c8Op2, by decide, rfl, by decide⟩ List.Chain.nil)⟩

end DMFB
